import Mathlib

/-!
# xir numeric types: `DataType` and the `bfloat16_t` codec

A shallow embedding of `include/xir/util/data_type.hpp`.

* Machine integers are natural numbers reduced modulo `2 ^ w` wherever the
  C++ arithmetic can overflow.
* A `float` is represented by its IEEE-754 binary32 bit pattern, a natural
  number below `2 ^ 32`.  Floating-point arithmetic itself is never
  interpreted: `+ - * /` on floats are parameters.
* Object representations are lists of bytes in memory order; the layout is
  the little-endian one the header relies on when it reads the upper half
  of a float at index 1 of a `std::array<uint16_t, 2>`.
-/

namespace xir

/-! ## Object representations -/

/-- Bytes of a `uint32_t` (and of a `float` with that bit pattern), in memory order. -/
def bytes_of_uint32 (x : Nat) : List Nat :=
  [x % 256, x / 256 % 256, x / 65536 % 256, x / 16777216 % 256]

/-- Value of the `uint32_t` stored in four bytes. -/
def uint32_of_bytes (b : List Nat) : Nat :=
  b.getD 0 0 + 256 * b.getD 1 0 + 65536 * b.getD 2 0 + 16777216 * b.getD 3 0

/-- Bytes of a `std::array<uint16_t, 2>`, element 0 first. -/
def bytes_of_array16 (a : Nat × Nat) : List Nat :=
  [a.1 % 256, a.1 / 256 % 256, a.2 % 256, a.2 / 256 % 256]

/-- Value of the `std::array<uint16_t, 2>` stored in four bytes. -/
def array16_of_bytes (b : List Nat) : Nat × Nat :=
  (b.getD 0 0 + 256 * b.getD 1 0, b.getD 2 0 + 256 * b.getD 3 0)

/-! ## `bit_cast` -/

/-- The body of `bit_cast`: starting from the storage `t` of the result (not
initialised by the source), `for (i = 0; i < sizeof(U); i++) t_ptr[i] = u_ptr[i]`.
`sizeof(U)` is the length of `u`. -/
def bit_cast (t u : List Nat) : List Nat :=
  (List.range u.length).foldl (fun acc i => acc.set i (u.getD i 0)) t

/-- Storage of a fresh four-byte local (`T t;`). -/
def fresh4 : List Nat := [0, 0, 0, 0]

/-- The instance `bit_cast<std::array<uint16_t, 2>>(float)`; also the instance at `uint32_t`. -/
def bit_cast_to_array16 (x : Nat) : Nat × Nat :=
  array16_of_bytes (bit_cast fresh4 (bytes_of_uint32 x))

/-- The instances `bit_cast<uint32_t>(float)` and `bit_cast<float>(uint32_t)`:
a float is its bit pattern. -/
def bit_cast_to_uint32 (x : Nat) : Nat :=
  uint32_of_bytes (bit_cast fresh4 (bytes_of_uint32 x))

/-- The instance `bit_cast<uint32_t>(std::array<uint16_t, 2>)`. -/
def bit_cast_array16_to_uint32 (a : Nat × Nat) : Nat :=
  uint32_of_bytes (bit_cast fresh4 (bytes_of_array16 a))

/-! ## `std::fpclassify` on binary32 patterns -/

/-- The five categories returned by `std::fpclassify`. -/
inductive FpClass where
  | FP_NAN
  | FP_INFINITE
  | FP_ZERO
  | FP_SUBNORMAL
  | FP_NORMAL
  deriving DecidableEq, Repr

/-- Exponent field (bits 23..30) of a binary32 pattern. -/
def exponent_field (f : Nat) : Nat := f / 2 ^ 23 % 256

/-- Mantissa field (bits 0..22) of a binary32 pattern. -/
def mantissa_field (f : Nat) : Nat := f % 2 ^ 23

/-- IEEE-754 classification of a binary32 pattern, as `std::fpclassify` does it. -/
def fpclassify (f : Nat) : FpClass :=
  if exponent_field f = 0 then
    if mantissa_field f = 0 then FpClass.FP_ZERO else FpClass.FP_SUBNORMAL
  else if exponent_field f = 255 then
    if mantissa_field f = 0 then FpClass.FP_INFINITE else FpClass.FP_NAN
  else FpClass.FP_NORMAL

/-! ## `static_cast<float>` on integers -/

/-- Position of the leading one bit of `a` (for `1 ≤ a < 2 ^ (fuel + 1)`). -/
def floor_log2 : Nat → Nat → Nat
  | 0, _ => 0
  | fuel + 1, a => if a < 2 then 0 else floor_log2 fuel (a / 2) + 1

/-- The language conversion `static_cast<float>(i)` of an integer of at most 64
bits, as IEEE-754 performs it in the default rounding mode (to nearest, ties to
even): the bit pattern of the nearest binary32 value. -/
def static_cast_float (i : Int) : Nat :=
  if i = 0 then 0
  else
    let s := if i < 0 then 1 else 0
    let a := i.natAbs
    let k := floor_log2 64 a
    if k ≤ 23 then
      s * 2 ^ 31 + (127 + k) * 2 ^ 23 + (a * 2 ^ (23 - k) - 2 ^ 23)
    else
      let q := a / 2 ^ (k - 23)
      let r := a % 2 ^ (k - 23)
      let half := 2 ^ (k - 24)
      let q' := if half < r ∨ (r = half ∧ q % 2 = 1) then q + 1 else q
      s * 2 ^ 31 + (127 + k) * 2 ^ 23 + (q' - 2 ^ 23)

/-! ## `bfloat16_t` -/

/-- The struct `bfloat16_t`: one `uint16_t`. -/
structure bfloat16_t where
  raw_bits_ : Nat
  deriving DecidableEq, Repr

namespace bfloat16_t

/-- The method `bfloat16_t::operator=(float f)`; `f` is the bit pattern of the argument. -/
def assign (f : Nat) : bfloat16_t :=
  let iraw := bit_cast_to_array16 f
  match fpclassify f with
  | FpClass.FP_SUBNORMAL | FpClass.FP_ZERO =>
      ⟨(iraw.2 &&& 0x8000) % 2 ^ 16⟩
  | FpClass.FP_INFINITE =>
      ⟨iraw.2⟩
  | FpClass.FP_NAN =>
      ⟨(iraw.2 ||| (1 <<< 6)) % 2 ^ 16⟩
  | FpClass.FP_NORMAL =>
      let rounding_bias := (0x00007FFF + (iraw.2 &&& 0x1)) % 2 ^ 32
      let int_raw := (bit_cast_to_uint32 f + rounding_bias) % 2 ^ 32
      let iraw2 := bit_cast_to_array16 int_raw
      ⟨iraw2.2⟩

/-- The constructor `bfloat16_t(float f) { (*this) = f; }`. -/
def of_float (f : Nat) : bfloat16_t := assign f

/-- The method `operator float() const`: the array `{0, raw_bits_}` read as a
`uint32_t` and reinterpreted as a float. -/
def to_float (self : bfloat16_t) : Nat :=
  bit_cast_to_uint32 (uint32_of_bytes (bytes_of_array16 (0, self.raw_bits_)))

/-- The private helper `convert_bits_of_normal_or_zero(bits)`. -/
def convert_bits_of_normal_or_zero (bits : Nat) : Nat :=
  (((bits + (0x7FFF + ((bits >>> 16) &&& 1)) % 2 ^ 32) % 2 ^ 32) >>> 16) % 2 ^ 16

/-- The converting constructor `bfloat16_t(const IntegerType i)`; `cvt` is the
language conversion `static_cast<float>(i)`, giving a bit pattern. -/
def of_integer (cvt : Int → Nat) (i : Int) : bfloat16_t :=
  ⟨convert_bits_of_normal_or_zero (bit_cast_to_uint32 (cvt i))⟩

/-- The method `operator+=`; `fadd` is binary32 addition on bit patterns. -/
def add_assign (fadd : Nat → Nat → Nat) (self : bfloat16_t) (a : Nat) : bfloat16_t :=
  assign (fadd (to_float self) a)

/-- The method `operator*=`; `fmul` is binary32 multiplication on bit patterns. -/
def mul_assign (fmul : Nat → Nat → Nat) (self : bfloat16_t) (a : Nat) : bfloat16_t :=
  assign (fmul (to_float self) a)

/-- The method `operator-=`; `fsub` is binary32 subtraction on bit patterns. -/
def sub_assign (fsub : Nat → Nat → Nat) (self : bfloat16_t) (a : Nat) : bfloat16_t :=
  assign (fsub (to_float self) a)

/-- The method `operator/=`; `fdiv` is binary32 division on bit patterns. -/
def div_assign (fdiv : Nat → Nat → Nat) (self : bfloat16_t) (a : Nat) : bfloat16_t :=
  assign (fdiv (to_float self) a)

end bfloat16_t

/-! ## `DataType`

The header declares the struct and its enum; the bodies of its member functions
are not part of the header and are modelled from the specification.  A
`std::string` is a list of characters. -/

/-- The enum `DataType::Type`. -/
inductive DataType_Type where
  | INT
  | UINT
  | XINT
  | XUINT
  | FLOAT
  | BFLOAT
  | UNKNOWN
  deriving DecidableEq, Repr

/-- The struct `DataType`: a `Type` and a `std::int32_t` bit width, an integer
in the range of a signed 32-bit word. -/
structure DataType where
  type : DataType_Type
  bit_width : Int
  bit_width_range : -2 ^ 31 ≤ bit_width ∧ bit_width < 2 ^ 31
  deriving DecidableEq, Repr

namespace DataType

/-- Modelled from the spec: the body of the default constructor `DataType()` is
missing; "no arguments → unknown/invalid", the descriptor the sentinel
`UNKNOWN0` stands for. -/
def invalid : DataType := ⟨DataType_Type.UNKNOWN, 0, by decide⟩

/-- Modelled from the spec: the body of `DataType::valid` is missing; "a
descriptor is valid iff kind is not unknown AND bit_width > 0". -/
def valid (d : DataType) : Bool :=
  decide (d.type ≠ DataType_Type.UNKNOWN) && decide (0 < d.bit_width)

/-- Modelled from the spec: the body of `operator==` is missing; "two
descriptors are equal iff kind and bit_width are both equal". -/
def eq_op (lhs rhs : DataType) : Bool :=
  decide (lhs.type = rhs.type) && decide (lhs.bit_width = rhs.bit_width)

/-- Modelled from the spec: the table of canonical names used by the missing
bodies of the string constructor and of `to_string`, in the stated priority
order "extended-unsigned, extended-signed, unsigned, signed, float,
truncated-float". -/
def type_names : List (DataType_Type × List Char) :=
  [(DataType_Type.XUINT, ['X', 'U', 'I', 'N', 'T']),
   (DataType_Type.XINT, ['X', 'I', 'N', 'T']),
   (DataType_Type.UINT, ['U', 'I', 'N', 'T']),
   (DataType_Type.INT, ['I', 'N', 'T']),
   (DataType_Type.FLOAT, ['F', 'L', 'O', 'A', 'T']),
   (DataType_Type.BFLOAT, ['B', 'F', 'L', 'O', 'A', 'T'])]

/-- Modelled from the spec: the sentinel string `UNKNOWN0` that `to_string`
returns for the unknown kind. -/
def sentinel : List Char := ['U', 'N', 'K', 'N', 'O', 'W', 'N', '0']

/-- The character of a decimal digit `d < 10`. -/
def digit_char (d : Nat) : Char := Char.ofNat (48 + d)

/-- Decimal digits of `n`, most significant first, in front of `acc`. -/
def decimal_digits : Nat → Nat → List Char → List Char
  | 0, _, acc => acc
  | fuel + 1, n, acc =>
      if n < 10 then digit_char n :: acc
      else decimal_digits fuel (n / 10) (digit_char (n % 10) :: acc)

/-- Modelled from the spec: "the decimal bit_width" that the missing body of
`to_string` appends, as `std::to_string` writes a signed integer. -/
def decimal (i : Int) : List Char :=
  if i < 0 then '-' :: decimal_digits (i.natAbs + 1) i.natAbs []
  else decimal_digits (i.toNat + 1) i.toNat []

/-- Value of a run of decimal digits continuing the value `v`; `none` at a
character that is not a digit. -/
def read_digits : List Char → Nat → Option Nat
  | [], v => some v
  | c :: cs, v => if c.isDigit then read_digits cs (10 * v + (c.toNat - 48)) else none

/-- Modelled from the spec: the missing string constructor "reads the remaining
characters as a non-negative integer bit width" and fails when "the suffix is
not a valid integer". -/
def read_width (s : List Char) : Option Nat :=
  if s = [] then none else read_digits s 0

/-- Canonical name of a kind; `none` for the unknown kind. -/
def type_name (k : DataType_Type) : Option (List Char) :=
  (type_names.find? (fun p => p.1 = k)).map (fun p => p.2)

/-- Modelled from the spec: the body of `DataType::to_string` is missing;
"concatenates the canonical prefix for kind with the decimal bit_width. For
the invalid/unknown kind, returns the sentinel string". -/
def to_string (d : DataType) : List Char :=
  match type_name d.type with
  | none => sentinel
  | some p => p ++ decimal d.bit_width

/-- Modelled from the spec: the body of the constructor
`DataType(const std::string&)` is missing; it "scans a known-prefix table in a
fixed priority order" and "reads the remaining characters as a non-negative
integer bit width", and produces the invalid descriptor "when: the prefix is
unrecognized, the suffix is not a valid integer, or the integer is
non-positive".  The width is stored in a `std::int32_t`: digits whose value
does not fit that field are not a valid integer for it. -/
def from_string (s : List Char) : DataType :=
  match type_names.find? (fun p => p.2.isPrefixOf s) with
  | none => invalid
  | some p =>
    match read_width (s.drop p.2.length) with
    | none => invalid
    | some w =>
      if h : w < 2 ^ 31 then
        if 0 < w then ⟨p.1, (w : Int), by omega⟩ else invalid
      else invalid

end DataType

/-- The number a string of decimal digits denotes. -/
def DataType.decimal_value (ds : List Char) : Nat :=
  Nat.ofDigits 10 (ds.reverse.map (fun c => c.toNat - 48))

/-! ## `create_data_type` and `get_bit_width` -/

/-- The generic template `create_data_type<T>()`: `return DataType{"UNKNOWN0"};`,
a call of the string constructor. -/
def create_data_type : DataType :=
  DataType.from_string ['U', 'N', 'K', 'N', 'O', 'W', 'N', '0']

/-- The native types for which the header declares a specialization of
`create_data_type`. -/
inductive NativeType where
  | float
  | double
  | char
  | int16_t
  | int32_t
  | int64_t
  | unsigned_char
  | uint16_t
  | uint32_t
  | uint64_t
  deriving DecidableEq, Repr

/-- The language constant `sizeof(T)` of the registered native types (IEEE-754
`float` and `double`, exact-width integers, bytes of eight bits). -/
def sizeof : NativeType → Nat
  | NativeType.float => 4
  | NativeType.double => 8
  | NativeType.char => 1
  | NativeType.int16_t => 2
  | NativeType.int32_t => 4
  | NativeType.int64_t => 8
  | NativeType.unsigned_char => 1
  | NativeType.uint16_t => 2
  | NativeType.uint32_t => 4
  | NativeType.uint64_t => 8

/-- The constant `CHAR_BIT` of `<climits>`. -/
def CHAR_BIT : Nat := 8

/-- The helper `get_bit_width<T>()`: `sizeof(T) * CHAR_BIT` stored in a
`std::int32_t`. -/
def get_bit_width (T : NativeType) : Int :=
  ((sizeof T * CHAR_BIT % 2 ^ 31 : Nat) : Int)

/-- Modelled from the spec: the bodies of the specializations of
`create_data_type` are missing; "for each native numeric type T supported
(32-bit float, 64-bit float, 8/16/32/64-bit signed and unsigned integers, 8-bit
char), there exists exactly one canonical descriptor".  The spec does not name
the kind of plain `char`; it is the parameter `char_kind`. -/
def create_data_type_native (char_kind : DataType_Type) : NativeType → DataType
  | NativeType.float => ⟨DataType_Type.FLOAT, 32, by decide⟩
  | NativeType.double => ⟨DataType_Type.FLOAT, 64, by decide⟩
  | NativeType.char => ⟨char_kind, 8, by decide⟩
  | NativeType.int16_t => ⟨DataType_Type.INT, 16, by decide⟩
  | NativeType.int32_t => ⟨DataType_Type.INT, 32, by decide⟩
  | NativeType.int64_t => ⟨DataType_Type.INT, 64, by decide⟩
  | NativeType.unsigned_char => ⟨DataType_Type.UINT, 8, by decide⟩
  | NativeType.uint16_t => ⟨DataType_Type.UINT, 16, by decide⟩
  | NativeType.uint32_t => ⟨DataType_Type.UINT, 32, by decide⟩
  | NativeType.uint64_t => ⟨DataType_Type.UINT, 64, by decide⟩

/-! ## Bulk routines -/

/-- Modelled from the spec: the body of `add_floats_and_cvt_to_bfloat16` is
missing (the header declares it under the comment
`out[:] = (bfloat16_t)(inp0[:] + inp1[:])`); it "computes
out[i] = round_to_truncated(a[i] + b[i]) for each i" in "sequential
element-wise processing order".  `fadd` is binary32 addition on bit patterns. -/
def add_floats_and_cvt_to_bfloat16 (fadd : Nat → Nat → Nat) (out : List bfloat16_t)
    (inp0 inp1 : List Nat) (nelems : Nat) : List bfloat16_t :=
  (List.range nelems).foldl
    (fun o i => o.set i (bfloat16_t.of_float (fadd (inp0.getD i 0) (inp1.getD i 0)))) out

/-! ## Lemmas on `bit_cast` -/

theorem bit_cast_loop_length (u : List Nat) (n : Nat) (t : List Nat) :
    ((List.range n).foldl (fun acc i => acc.set i (u.getD i 0)) t).length = t.length := by
  induction n with
  | zero => simp
  | succ k ih =>
    simp only [List.range_succ, List.foldl_append, List.foldl_cons, List.foldl_nil,
      List.length_set]
    exact ih

theorem bit_cast_loop_getElem? (u : List Nat) (n : Nat) (t : List Nat)
    (hn : n ≤ u.length) (hl : t.length = u.length) (j : Nat) :
    ((List.range n).foldl (fun acc i => acc.set i (u.getD i 0)) t)[j]? =
      if j < n then u[j]? else t[j]? := by
  induction n with
  | zero => simp
  | succ k ih =>
    have hk : k ≤ u.length := by omega
    have hlen := bit_cast_loop_length u k t
    simp only [List.range_succ, List.foldl_append, List.foldl_cons, List.foldl_nil]
    rw [List.getElem?_set]
    by_cases hkj : k = j
    · subst hkj
      have h1 : k < u.length := by omega
      rw [if_pos rfl, if_pos (by omega), if_pos (by omega), List.getD_eq_getElem?_getD,
        List.getElem?_eq_getElem h1]
      rfl
    · rw [if_neg hkj, ih hk]
      by_cases h2 : j < k
      · have h3 : j < k + 1 := by omega
        simp [h2, h3]
      · have h3 : ¬ j < k + 1 := by omega
        simp [h2, h3]

theorem bit_cast_same_size (t u : List Nat) (hl : t.length = u.length) :
    bit_cast t u = u := by
  apply List.ext_getElem?
  intro j
  unfold bit_cast
  rw [bit_cast_loop_getElem? u u.length t (Nat.le_refl _) hl j]
  by_cases h : j < u.length
  · simp [h]
  · have h1 : u.length ≤ j := by omega
    have h2 : t.length ≤ j := by omega
    simp [h, List.getElem?_eq_none h1, List.getElem?_eq_none h2]

/-! ## Arithmetic form of the typed `bit_cast` instances -/

theorem bit_cast_to_array16_eq (x : Nat) :
    bit_cast_to_array16 x = (x % 65536, x / 65536 % 65536) := by
  unfold bit_cast_to_array16
  rw [bit_cast_same_size _ _ (by simp [fresh4, bytes_of_uint32])]
  simp only [array16_of_bytes, bytes_of_uint32, List.getD_cons_zero, List.getD_cons_succ,
    Prod.mk.injEq]
  omega

theorem bit_cast_to_uint32_eq (x : Nat) : bit_cast_to_uint32 x = x % 4294967296 := by
  unfold bit_cast_to_uint32
  rw [bit_cast_same_size _ _ (by simp [fresh4, bytes_of_uint32])]
  simp only [uint32_of_bytes, bytes_of_uint32, List.getD_cons_zero, List.getD_cons_succ]
  omega

theorem bit_cast_array16_to_uint32_eq (a : Nat × Nat) :
    bit_cast_array16_to_uint32 a = a.1 % 65536 + 65536 * (a.2 % 65536) := by
  unfold bit_cast_array16_to_uint32
  rw [bit_cast_same_size _ _ (by simp [fresh4, bytes_of_array16])]
  simp only [uint32_of_bytes, bytes_of_array16, List.getD_cons_zero, List.getD_cons_succ]
  omega

/-! ## Arithmetic form of the masks used by `operator=` -/

theorem and_0x8000 (a : Nat) : a &&& 0x8000 = a / 32768 % 2 * 32768 := by
  have h := Nat.and_two_pow a 15
  rw [Nat.testBit_to_div_mod] at h
  norm_num at h
  rw [h]
  by_cases hb : a / 32768 % 2 = 1
  · simp [hb]
  · have : a / 32768 % 2 = 0 := by omega
    simp [this]

theorem or_64_small : ∀ l < 128, l ||| 64 = l + 64 - l / 64 % 2 * 64 := by decide

theorem or_64 (a : Nat) : a ||| 64 = a + 64 - a / 64 % 2 * 64 := by
  have hl : a % 128 < 2 ^ 7 := by omega
  have hl2 : (a % 128 ||| 64) < 2 ^ 7 := Nat.or_lt_two_pow hl (by norm_num)
  have h1 : a = 2 ^ 7 * (a / 128) ||| a % 128 := by
    rw [← Nat.mul_add_lt_is_or hl]; omega
  have h2 : a ||| 64 = 2 ^ 7 * (a / 128) + (a % 128 ||| 64) := by
    rw [Nat.mul_add_lt_is_or hl2, ← Nat.or_assoc, ← h1]
  rw [h2, or_64_small _ (by omega)]
  omega

/-! ## The classification in terms of the fields -/

theorem fpclassify_normal_iff (f : Nat) :
    fpclassify f = FpClass.FP_NORMAL ↔ 1 ≤ exponent_field f ∧ exponent_field f ≤ 254 := by
  have hlt : exponent_field f < 256 := by unfold exponent_field; omega
  unfold fpclassify
  split_ifs <;> simp <;> omega

theorem fpclassify_zero_or_subnormal_iff (f : Nat) :
    (fpclassify f = FpClass.FP_ZERO ∨ fpclassify f = FpClass.FP_SUBNORMAL) ↔
      exponent_field f = 0 := by
  unfold fpclassify
  split_ifs <;> simp <;> omega

theorem fpclassify_infinite_iff (f : Nat) :
    fpclassify f = FpClass.FP_INFINITE ↔ exponent_field f = 255 ∧ mantissa_field f = 0 := by
  unfold fpclassify
  split_ifs <;> simp <;> omega

theorem fpclassify_nan_iff (f : Nat) :
    fpclassify f = FpClass.FP_NAN ↔ exponent_field f = 255 ∧ mantissa_field f ≠ 0 := by
  unfold fpclassify
  split_ifs <;> simp <;> omega

/-! ## Arithmetic form of `operator=` and `operator float` -/

theorem to_float_eq (b : bfloat16_t) :
    bfloat16_t.to_float b = b.raw_bits_ % 65536 * 65536 := by
  unfold bfloat16_t.to_float
  rw [bit_cast_to_uint32_eq]
  simp only [uint32_of_bytes, bytes_of_array16, List.getD_cons_zero, List.getD_cons_succ]
  omega

theorem assign_flush (f : Nat) (h : exponent_field f = 0) :
    (bfloat16_t.assign f).raw_bits_ = f / 2147483648 % 2 * 32768 := by
  have hc := (fpclassify_zero_or_subnormal_iff f).2 h
  unfold bfloat16_t.assign
  rcases hc with hc | hc <;> rw [hc] <;>
    simp only [bit_cast_to_array16_eq, and_0x8000] <;> omega

theorem assign_infinite (f : Nat) (h : fpclassify f = FpClass.FP_INFINITE) :
    (bfloat16_t.assign f).raw_bits_ = f / 65536 % 65536 := by
  unfold bfloat16_t.assign
  rw [h]
  simp only [bit_cast_to_array16_eq]

theorem assign_nan (f : Nat) (h : fpclassify f = FpClass.FP_NAN) :
    (bfloat16_t.assign f).raw_bits_ = (f / 65536 % 65536) ||| 0x0040 := by
  unfold bfloat16_t.assign
  rw [h]
  simp only [bit_cast_to_array16_eq]
  have h64 : (1 <<< 6 : Nat) = 64 := by decide
  rw [h64, or_64]
  omega

theorem assign_normal (f : Nat) (hf : f < 2 ^ 32) (h : fpclassify f = FpClass.FP_NORMAL) :
    (bfloat16_t.assign f).raw_bits_ = (f + 32767 + f / 65536 % 2) / 65536 := by
  have he := (fpclassify_normal_iff f).1 h
  unfold exponent_field at he
  unfold bfloat16_t.assign
  rw [h]
  simp only [bit_cast_to_array16_eq, bit_cast_to_uint32_eq, Nat.and_one_is_mod]
  have h1 : f % 4294967296 = f := Nat.mod_eq_of_lt hf
  have h2 : f / 65536 % 65536 = f / 65536 := by omega
  have h3 : f < 4286578688 := by omega
  have h4 : (32767 + f / 65536 % 2) % 2 ^ 32 = 32767 + f / 65536 % 2 := by omega
  have h5 : (f + (32767 + f / 65536 % 2)) % 2 ^ 32 = f + 32767 + f / 65536 % 2 := by omega
  rw [h1, h2, h4, h5]
  omega

theorem bfloat16_t_eq_of_raw_bits (a b : bfloat16_t) (h : a.raw_bits_ = b.raw_bits_) :
    a = b := by
  cases a; cases b; simp_all

theorem normal_lt (f : Nat) (h : fpclassify f = FpClass.FP_NORMAL) :
    8388608 ≤ f % 2147483648 ∧ f % 2147483648 < 2139095040 := by
  have he := (fpclassify_normal_iff f).1 h
  unfold exponent_field at he
  omega

/-- Field decomposition of a normal pattern and of the biased sum's upper half:
`s` sign, `e` exponent, `m` upper seven mantissa bits, `l` low half, `up` the
carry out of the low half. -/
theorem round_fields (x : Nat) (hx : x < 2 ^ 32)
    (hb : 8388608 ≤ x % 2147483648 ∧ x % 2147483648 < 2139095040) :
    ∃ s e m l up : Nat, s < 2 ∧ 1 ≤ e ∧ e ≤ 254 ∧ m < 128 ∧ l < 65536 ∧ up < 2 ∧
      x = 2147483648 * s + 8388608 * e + 65536 * m + l ∧
      (x + 32767 + x / 65536 % 2) / 65536 = 32768 * s + 128 * e + m + up ∧
      (up = 1 → 32768 ≤ l ∧ (l = 32768 → m % 2 = 1)) ∧
      (up = 0 → l ≤ 32768 ∧ (l = 32768 → m % 2 = 0)) := by
  have h1 : x / 65536 = 32768 * (x / 2147483648) + 128 * (x / 8388608 % 256)
      + x / 65536 % 128 := by omega
  have h2 : (x + 32767 + x / 65536 % 2) / 65536
      = x / 65536 + (x % 65536 + 32767 + x / 65536 % 2) / 65536 := by omega
  refine ⟨x / 2147483648, x / 8388608 % 256, x / 65536 % 128, x % 65536,
    (x % 65536 + 32767 + x / 65536 % 2) / 65536, ?_, ?_, ?_, ?_, ?_, ?_, ?_, ?_, ?_, ?_⟩
  · omega
  · omega
  · omega
  · omega
  · omega
  · omega
  · omega
  · rw [h2]; omega
  · omega
  · omega

theorem fields_exponent (s e m l : Nat) (he : e < 256) (hm : m < 128) (hl : l < 65536) :
    (2147483648 * s + 8388608 * e + 65536 * m + l) / 2 ^ 23 % 256 = e ∧
    (2147483648 * s + 8388608 * e + 65536 * m + l) % 2 ^ 31
      = 8388608 * e + 65536 * m + l := by
  constructor <;> omega

/-! ## The codec: rounding, idempotence, special values -/

/-- C1: for a normal binary32 pattern `x`, the result `r` of `operator=(float)`
satisfies `|r * 2^16 - x| ≤ 2^15`, on the full patterns and on the magnitude
patterns, and `r` is even when the distance is exactly `2^15`; the float
converted back lies less than one bfloat16 ULP (`2^16` pattern units) from `x`,
and its exponent field differs from that of `x` only when it is the next
exponent boundary and `x` lies within `2^15` below that boundary. -/
theorem C1_round_to_nearest_even (x : Nat) (hx : x < 2 ^ 32)
    (hn : fpclassify x = FpClass.FP_NORMAL) :
    |(((bfloat16_t.assign x).raw_bits_ * 2 ^ 16 : Nat) : Int) - (x : Int)| ≤ 2 ^ 15 ∧
    |(((bfloat16_t.assign x).raw_bits_ % 2 ^ 15 * 2 ^ 16 : Nat) : Int)
        - ((x % 2 ^ 31 : Nat) : Int)| ≤ 2 ^ 15 ∧
    (|(((bfloat16_t.assign x).raw_bits_ * 2 ^ 16 : Nat) : Int) - (x : Int)| = 2 ^ 15 →
      (bfloat16_t.assign x).raw_bits_ % 2 = 0) ∧
    |((bfloat16_t.to_float (bfloat16_t.assign x) : Nat) : Int) - (x : Int)| < 2 ^ 16 ∧
    (exponent_field (bfloat16_t.to_float (bfloat16_t.assign x)) ≠ exponent_field x →
      bfloat16_t.to_float (bfloat16_t.assign x) % 2 ^ 31 = (exponent_field x + 1) * 2 ^ 23 ∧
      (exponent_field x + 1) * 2 ^ 23 ≤ x % 2 ^ 31 + 2 ^ 15) := by
  have hb := normal_lt x hn
  have hr := assign_normal x hx hn
  rw [to_float_eq, hr]
  unfold exponent_field
  clear hr hn
  obtain ⟨s, e, m, l, up, hs, he1, he2, hm, hl, hup, hxe, hre, hu1, hu0⟩ :=
    round_fields x hx hb
  rw [hre]
  clear hre hb hx
  subst hxe
  obtain ⟨hE, hM⟩ := fields_exponent s e m l (by omega) hm hl
  rw [hE, hM]
  clear hE hM
  have hr15 : (32768 * s + 128 * e + m + up) % 2 ^ 15 = 128 * e + m + up := by omega
  have hr16 : (32768 * s + 128 * e + m + up) % 65536 = 32768 * s + 128 * e + m + up := by
    omega
  have hr2 : (32768 * s + 128 * e + m + up) % 2 = (m + up) % 2 := by omega
  rw [hr15, hr16, hr2]
  clear hr15 hr16 hr2
  have hE2 : ((32768 * s + 128 * e + m + up) * 65536) / 2 ^ 23 % 256
      = e + (m + up) / 128 := by omega
  have hM2 : ((32768 * s + 128 * e + m + up) * 65536) % 2 ^ 31
      = (128 * e + m + up) * 65536 := by omega
  rw [hE2, hM2]
  clear hE2 hM2
  refine ⟨abs_le.mpr ⟨by omega, by omega⟩, abs_le.mpr ⟨by omega, by omega⟩, ?_,
      abs_lt.mpr ⟨by omega, by omega⟩, ?_⟩
  · intro h
    rcases (abs_eq (by norm_num)).1 h with h | h <;> omega
  · intro h
    omega

/-- Witness for C1 at the two midpoints named by the claim: `0x3F808000` rounds
down to the even `0x3F80`, `0x3F818000` rounds up to the even `0x3F82`. -/
theorem C1_round_to_nearest_even_witness :
    (bfloat16_t.assign 0x3F808000).raw_bits_ = 0x3F80 ∧
    (bfloat16_t.assign 0x3F818000).raw_bits_ = 0x3F82 ∧
    (|(((bfloat16_t.assign 0x3F818000).raw_bits_ * 2 ^ 16 : Nat) : Int)
        - ((0x3F818000 : Nat) : Int)| = 2 ^ 15 →
      (bfloat16_t.assign 0x3F818000).raw_bits_ % 2 = 0) :=
  ⟨by decide, by decide,
    (C1_round_to_nearest_even 0x3F818000 (by decide) (by decide)).2.2.1⟩

/-- C2: for every 32-bit pattern `f`, converting to `bfloat16_t`, back to
float, and to `bfloat16_t` again gives the `raw_bits_` of the first conversion. -/
theorem C2_codec_idempotent (f : Nat) (hf : f < 2 ^ 32) :
    bfloat16_t.assign (bfloat16_t.to_float (bfloat16_t.assign f)) = bfloat16_t.assign f := by
  apply bfloat16_t_eq_of_raw_bits
  rw [to_float_eq]
  have hflush : exponent_field f = 0 →
      (bfloat16_t.assign ((bfloat16_t.assign f).raw_bits_ % 65536 * 65536)).raw_bits_
        = (bfloat16_t.assign f).raw_bits_ := by
    intro he
    rw [assign_flush f he]
    have hb : f / 2147483648 % 2 < 2 := by omega
    generalize f / 2147483648 % 2 = b at hb
    have he2 : exponent_field (b * 32768 % 65536 * 65536) = 0 := by
      unfold exponent_field; omega
    rw [assign_flush _ he2]
    omega
  cases hc : fpclassify f with
  | FP_ZERO => exact hflush ((fpclassify_zero_or_subnormal_iff f).1 (Or.inl hc))
  | FP_SUBNORMAL => exact hflush ((fpclassify_zero_or_subnormal_iff f).1 (Or.inr hc))
  | FP_INFINITE =>
    have he := (fpclassify_infinite_iff f).1 hc
    unfold exponent_field mantissa_field at he
    rw [assign_infinite f hc]
    have hback : f / 65536 % 65536 % 65536 * 65536 = f := by omega
    rw [hback, assign_infinite f hc]
  | FP_NAN =>
    have he := (fpclassify_nan_iff f).1 hc
    unfold exponent_field mantissa_field at he
    rw [assign_nan f hc, or_64]
    have hh : f / 65536 % 65536 / 128 % 256 = 255 := by omega
    have hlt : f / 65536 % 65536 < 65536 := by omega
    generalize f / 65536 % 65536 = h at hh hlt
    have hr : h + 64 - h / 64 % 2 * 64 < 65536 := by omega
    have hr6 : (h + 64 - h / 64 % 2 * 64) / 64 % 2 = 1 := by omega
    have hr7 : (h + 64 - h / 64 % 2 * 64) / 128 % 256 = 255 := by omega
    generalize h + 64 - h / 64 % 2 * 64 = r at hr hr6 hr7
    have hnan : fpclassify (r % 65536 * 65536) = FpClass.FP_NAN := by
      rw [fpclassify_nan_iff]
      unfold exponent_field mantissa_field
      constructor <;> omega
    rw [assign_nan _ hnan, or_64]
    omega
  | FP_NORMAL =>
    have hb := normal_lt f hc
    rw [assign_normal f hf hc]
    obtain ⟨s, e, m, l, up, hs, he1, he2, hm, hl, hup, hxe, hre, hu1, hu0⟩ :=
      round_fields f hf hb
    rw [hre]
    clear hre hb hc hxe hu1 hu0
    have hr16 : (32768 * s + 128 * e + m + up) % 65536 = 32768 * s + 128 * e + m + up := by
      omega
    rw [hr16]
    clear hr16
    by_cases hov : e = 254 ∧ m = 127 ∧ up = 1
    · obtain ⟨h1, h2, h3⟩ := hov
      subst h1 h2 h3
      have hinf : fpclassify ((32768 * s + 128 * 254 + 127 + 1) * 65536)
          = FpClass.FP_INFINITE := by
        rw [fpclassify_infinite_iff]
        unfold exponent_field mantissa_field
        constructor <;> omega
      rw [assign_infinite _ hinf]
      omega
    · have hnorm : fpclassify ((32768 * s + 128 * e + m + up) * 65536)
          = FpClass.FP_NORMAL := by
        rw [fpclassify_normal_iff]
        unfold exponent_field
        have hE2 : ((32768 * s + 128 * e + m + up) * 65536) / 2 ^ 23 % 256
            = e + (m + up) / 128 := by omega
        rw [hE2]
        omega
      rw [assign_normal _ (by omega) hnorm]
      omega

/-- Witness for C2 at a signalling NaN pattern with a non-zero low half. -/
theorem C2_codec_idempotent_witness :
    (0x7F800001 : Nat) < 2 ^ 32 ∧
    bfloat16_t.assign (bfloat16_t.to_float (bfloat16_t.assign 0x7F800001))
      = bfloat16_t.assign 0x7F800001 :=
  ⟨by decide, C2_codec_idempotent 0x7F800001 (by decide)⟩

/-- C3: for a float whose exponent field is 0 (zero or subnormal),
`operator=(float)` stores `0x8000` when the sign bit is set and `0x0000`
otherwise, and converting back gives `0x80000000` (-0.0) or `0x00000000` (+0.0). -/
theorem C3_flush_to_signed_zero (f : Nat) (he : exponent_field f = 0) :
    (fpclassify f = FpClass.FP_ZERO ∨ fpclassify f = FpClass.FP_SUBNORMAL) ∧
    (bfloat16_t.assign f).raw_bits_ = (if f.testBit 31 then 0x8000 else 0x0000) ∧
    bfloat16_t.to_float (bfloat16_t.assign f)
      = (if f.testBit 31 then 0x80000000 else 0x00000000) := by
  refine ⟨(fpclassify_zero_or_subnormal_iff f).2 he, ?_, ?_⟩
  · rw [assign_flush f he, Nat.testBit_to_div_mod]
    by_cases hs : f / 2 ^ 31 % 2 = 1
    · simp only [hs, decide_True, if_true]; omega
    · simp only [hs, decide_False]; simp only [Bool.false_eq_true, if_false]; omega
  · rw [to_float_eq, assign_flush f he, Nat.testBit_to_div_mod]
    by_cases hs : f / 2 ^ 31 % 2 = 1
    · simp only [hs, decide_True, if_true]; omega
    · simp only [hs, decide_False]; simp only [Bool.false_eq_true, if_false]; omega

/-- Witness for C3 at the largest negative subnormal. -/
theorem C3_flush_to_signed_zero_witness :
    (bfloat16_t.assign 0x807FFFFF).raw_bits_ = 0x8000 ∧
    bfloat16_t.to_float (bfloat16_t.assign 0x807FFFFF) = 0x80000000 :=
  ⟨(C3_flush_to_signed_zero 0x807FFFFF (by decide)).2.1,
   (C3_flush_to_signed_zero 0x807FFFFF (by decide)).2.2⟩

/-- C4: for a NaN pattern (exponent field 255, non-zero mantissa) the result is
the upper 16 bits of the input OR `0x0040`; its exponent field is all ones and
its bit 6 is set, and converting back gives a NaN with bit 22 set, whatever
bit 22 of the input was. -/
theorem C4_nan_becomes_quiet (f : Nat) (hf : f < 2 ^ 32) (he : exponent_field f = 255)
    (hm : mantissa_field f ≠ 0) :
    (bfloat16_t.assign f).raw_bits_ = (f / 2 ^ 16) ||| 0x0040 ∧
    (bfloat16_t.assign f).raw_bits_ / 2 ^ 7 % 256 = 255 ∧
    (bfloat16_t.assign f).raw_bits_.testBit 6 = true ∧
    fpclassify (bfloat16_t.to_float (bfloat16_t.assign f)) = FpClass.FP_NAN ∧
    (bfloat16_t.to_float (bfloat16_t.assign f)).testBit 22 = true := by
  have hc : fpclassify f = FpClass.FP_NAN := (fpclassify_nan_iff f).2 ⟨he, hm⟩
  unfold exponent_field at he
  have hhi : f / 65536 % 65536 = f / 2 ^ 16 := by omega
  have hr := assign_nan f hc
  rw [hhi] at hr
  rw [to_float_eq, hr, or_64]
  have hh : f / 2 ^ 16 / 128 % 256 = 255 := by omega
  have hlt : f / 2 ^ 16 < 65536 := by omega
  generalize f / 2 ^ 16 = h at hh hlt
  have h6 : (h + 64 - h / 64 % 2 * 64) / 64 % 2 = 1 := by omega
  have h7 : (h + 64 - h / 64 % 2 * 64) / 128 % 256 = 255 := by omega
  have h16 : h + 64 - h / 64 % 2 * 64 < 65536 := by omega
  generalize h + 64 - h / 64 % 2 * 64 = r at h6 h7 h16
  refine ⟨rfl, by omega, ?_, ?_, ?_⟩
  · rw [Nat.testBit_to_div_mod]
    simpa using h6
  · rw [fpclassify_nan_iff]
    unfold exponent_field mantissa_field
    constructor <;> omega
  · rw [Nat.testBit_to_div_mod]
    have : r % 65536 * 65536 / 2 ^ 22 % 2 = 1 := by omega
    simpa using this

/-- Witness for C4 at a signalling NaN (bit 22 clear, low mantissa bit set). -/
theorem C4_nan_becomes_quiet_witness :
    (0x7F800001 : Nat).testBit 22 = false ∧
    (bfloat16_t.assign 0x7F800001).raw_bits_ = 0x7FC0 ∧
    (bfloat16_t.to_float (bfloat16_t.assign 0x7F800001)).testBit 22 = true :=
  ⟨by decide, by decide,
    (C4_nan_becomes_quiet 0x7F800001 (by decide) (by decide) (by decide)).2.2.2.2⟩

/-- C5: `+inf` (`0x7F800000`) converts to `0x7F80` and back to `0x7F800000`;
`-inf` (`0xFF800000`) converts to `0xFF80` and back to `0xFF800000`. -/
theorem C5_infinities_round_trip :
    fpclassify 0x7F800000 = FpClass.FP_INFINITE ∧
    (bfloat16_t.assign 0x7F800000).raw_bits_ = 0x7F80 ∧
    bfloat16_t.to_float (bfloat16_t.assign 0x7F800000) = 0x7F800000 ∧
    fpclassify 0xFF800000 = FpClass.FP_INFINITE ∧
    (bfloat16_t.assign 0xFF800000).raw_bits_ = 0xFF80 ∧
    bfloat16_t.to_float (bfloat16_t.assign 0xFF800000) = 0xFF800000 := by
  decide

/-- C6: for every 16-bit `b`, `operator float()` on `raw_bits_ = b` returns the
pattern `b * 2^16` (upper half `b`, lower half zero), and distinct 16-bit
`raw_bits_` give distinct float patterns. -/
theorem C6_to_float_exact (b : Nat) (hb : b < 2 ^ 16) :
    bfloat16_t.to_float ⟨b⟩ = b * 2 ^ 16 ∧
    bfloat16_t.to_float ⟨b⟩ / 2 ^ 16 = b ∧
    bfloat16_t.to_float ⟨b⟩ % 2 ^ 16 = 0 ∧
    ∀ c : Nat, c < 2 ^ 16 → bfloat16_t.to_float ⟨c⟩ = bfloat16_t.to_float ⟨b⟩ → c = b := by
  have e : ∀ a : Nat, a < 2 ^ 16 → bfloat16_t.to_float ⟨a⟩ = a * 2 ^ 16 := by
    intro a ha
    rw [to_float_eq]
    show a % 65536 * 65536 = a * 2 ^ 16
    omega
  rw [e b hb]
  refine ⟨rfl, by omega, by omega, ?_⟩
  intro c hc h
  rw [e c hc] at h
  omega

/-- Witness for C6 at `raw_bits_ = 0x3F80` (1.0). -/
theorem C6_to_float_exact_witness :
    bfloat16_t.to_float ⟨0x3F80⟩ = 0x3F80 * 2 ^ 16 ∧
    bfloat16_t.to_float ⟨0x3F80⟩ = 0x3F800000 :=
  ⟨(C6_to_float_exact 0x3F80 (by decide)).1, by decide⟩

/-! ## The integer fast path -/

theorem floor_log2_spec (fuel a : Nat) (h1 : 1 ≤ a) (h2 : a < 2 ^ (fuel + 1)) :
    2 ^ floor_log2 fuel a ≤ a ∧ a < 2 ^ (floor_log2 fuel a + 1) := by
  induction fuel generalizing a with
  | zero => simp [floor_log2]; omega
  | succ n ih =>
    unfold floor_log2
    by_cases h : a < 2
    · simp [h]; omega
    · simp only [h, if_false]
      have := ih (a / 2) (by omega) (by rw [pow_succ] at h2; omega)
      obtain ⟨h3, h4⟩ := this
      rw [pow_succ, pow_succ]
      rw [pow_succ] at h4
      omega

/-- A non-zero integer of at most 64 bits converts to a pattern with exponent
field between 127 and 191. -/
theorem static_cast_float_fields (i : Int) (h1 : -2 ^ 63 ≤ i) (h2 : i < 2 ^ 64)
    (h0 : i ≠ 0) :
    ∃ s e m : Nat, s < 2 ∧ 127 ≤ e ∧ e ≤ 191 ∧ m < 2 ^ 23 ∧
      static_cast_float i = s * 2 ^ 31 + e * 2 ^ 23 + m := by
  have ha1 : 1 ≤ i.natAbs := by omega
  have ha2 : i.natAbs < 2 ^ 64 := by omega
  obtain ⟨hk1, hk2⟩ := floor_log2_spec 64 i.natAbs ha1 (by omega)
  have hk : floor_log2 64 i.natAbs < 64 := by
    by_contra hcon
    have : 2 ^ 64 ≤ 2 ^ floor_log2 64 i.natAbs :=
      Nat.pow_le_pow_right (by norm_num) (by omega)
    omega
  unfold static_cast_float
  simp only [h0, if_false]
  generalize floor_log2 64 i.natAbs = k at hk1 hk2 hk
  generalize i.natAbs = a at hk1 hk2 ha1 ha2
  have hs : (if i < 0 then 1 else 0 : Nat) < 2 := by split_ifs <;> omega
  generalize (if i < 0 then 1 else 0 : Nat) = s at hs
  by_cases hle : k ≤ 23
  · simp only [hle, if_true]
    have hp : 2 ^ k * 2 ^ (23 - k) = 2 ^ 23 := by rw [← pow_add]; congr 1; omega
    have hp2 : 2 ^ (k + 1) * 2 ^ (23 - k) = 2 ^ 24 := by rw [← pow_add]; congr 1; omega
    have hpos : 0 < 2 ^ (23 - k) := by positivity
    have ht1 : 2 ^ 23 ≤ a * 2 ^ (23 - k) := by
      rw [← hp]; exact Nat.mul_le_mul_right _ hk1
    have ht2 : a * 2 ^ (23 - k) < 2 ^ 24 := by
      rw [← hp2]; exact Nat.mul_lt_mul_of_pos_right hk2 hpos
    refine ⟨s, 127 + k, a * 2 ^ (23 - k) - 2 ^ 23, hs, by omega, by omega, by omega, rfl⟩
  · simp only [hle, if_false]
    have hp : 2 ^ 23 * 2 ^ (k - 23) = 2 ^ k := by rw [← pow_add]; congr 1; omega
    have hp2 : 2 ^ 24 * 2 ^ (k - 23) = 2 ^ (k + 1) := by rw [← pow_add]; congr 1; omega
    have hpos : 0 < 2 ^ (k - 23) := by positivity
    have hq1 : 2 ^ 23 ≤ a / 2 ^ (k - 23) := by
      rw [Nat.le_div_iff_mul_le hpos, hp]; exact hk1
    have hq2 : a / 2 ^ (k - 23) < 2 ^ 24 := by
      rw [Nat.div_lt_iff_lt_mul hpos, hp2]; exact hk2
    generalize a / 2 ^ (k - 23) = q at hq1 hq2
    split_ifs with hr
    · by_cases hc : q + 1 = 2 ^ 24
      · exact ⟨s, 127 + k + 1, 0, hs, by omega, by omega, by norm_num, by omega⟩
      · exact ⟨s, 127 + k, q + 1 - 2 ^ 23, hs, by omega, by omega, by omega, rfl⟩
    · exact ⟨s, 127 + k, q - 2 ^ 23, hs, by omega, by omega, by omega, rfl⟩

theorem static_cast_float_class (i : Int) (h1 : -2 ^ 63 ≤ i) (h2 : i < 2 ^ 64) :
    static_cast_float i < 2 ^ 32 ∧
    (fpclassify (static_cast_float i) = FpClass.FP_NORMAL ∨
      fpclassify (static_cast_float i) = FpClass.FP_ZERO) := by
  by_cases h0 : i = 0
  · subst h0
    exact ⟨by decide, Or.inr (by decide)⟩
  · obtain ⟨s, e, m, hs, he1, he2, hm, hp⟩ := static_cast_float_fields i h1 h2 h0
    rw [hp]
    refine ⟨by omega, Or.inl ?_⟩
    rw [fpclassify_normal_iff]
    unfold exponent_field
    have : (s * 2 ^ 31 + e * 2 ^ 23 + m) / 2 ^ 23 % 256 = e := by omega
    rw [this]
    omega

theorem convert_bits_eq_assign (x : Nat) (hx : x < 2 ^ 32)
    (hc : fpclassify x = FpClass.FP_NORMAL ∨ fpclassify x = FpClass.FP_ZERO) :
    bfloat16_t.convert_bits_of_normal_or_zero x = (bfloat16_t.assign x).raw_bits_ := by
  unfold bfloat16_t.convert_bits_of_normal_or_zero
  rw [Nat.shiftRight_eq_div_pow, Nat.shiftRight_eq_div_pow, Nat.and_one_is_mod]
  rcases hc with hc | hc
  · have hb := normal_lt x hc
    rw [assign_normal x hx hc]
    have h4 : (32767 + x / 2 ^ 16 % 2) % 2 ^ 32 = 32767 + x / 65536 % 2 := by omega
    have h5 : (x + (32767 + x / 65536 % 2)) % 2 ^ 32 = x + 32767 + x / 65536 % 2 := by omega
    rw [h4, h5]
    omega
  · have he : exponent_field x = 0 :=
      (fpclassify_zero_or_subnormal_iff x).1 (Or.inl hc)
    rw [assign_flush x he]
    have hm : mantissa_field x = 0 := by
      unfold fpclassify at hc
      rw [if_pos he] at hc
      by_contra hne
      rw [if_neg hne] at hc
      exact absurd hc (by decide)
    unfold exponent_field at he
    unfold mantissa_field at hm
    have h4 : (32767 + x / 2 ^ 16 % 2) % 2 ^ 32 = 32767 := by omega
    have h5 : (x + 32767) % 2 ^ 32 = x + 32767 := by omega
    rw [h4, h5]
    omega

/-- C7: for every 32-bit pattern `x` classified as normal or zero,
`convert_bits_of_normal_or_zero x` equals the `raw_bits_` produced by
`operator=(float)` on `x`; hence for every integer `i` of a native type (at
most 64 bits), `bfloat16_t(i)` has the `raw_bits_` of
`bfloat16_t(static_cast<float>(i))`. -/
theorem C7_fast_path_agrees (x : Nat) (hx : x < 2 ^ 32)
    (hc : fpclassify x = FpClass.FP_NORMAL ∨ fpclassify x = FpClass.FP_ZERO)
    (i : Int) (h1 : -2 ^ 63 ≤ i) (h2 : i < 2 ^ 64) :
    bfloat16_t.convert_bits_of_normal_or_zero x = (bfloat16_t.assign x).raw_bits_ ∧
    bfloat16_t.of_integer static_cast_float i
      = bfloat16_t.of_float (static_cast_float i) := by
  refine ⟨convert_bits_eq_assign x hx hc, ?_⟩
  obtain ⟨hlt, hcl⟩ := static_cast_float_class i h1 h2
  apply bfloat16_t_eq_of_raw_bits
  unfold bfloat16_t.of_integer bfloat16_t.of_float
  have hmod : static_cast_float i % 4294967296 = static_cast_float i :=
    Nat.mod_eq_of_lt hlt
  rw [bit_cast_to_uint32_eq, hmod]
  exact convert_bits_eq_assign _ hlt hcl

/-- Witness for C7 at negative zero and at `2^24 + 3`, an integer that is not
a binary32 value. -/
theorem C7_fast_path_agrees_witness :
    bfloat16_t.convert_bits_of_normal_or_zero 0x80000000 = 0x8000 ∧
    static_cast_float 16777219 = 0x4B800002 ∧
    bfloat16_t.convert_bits_of_normal_or_zero 0x80000000
      = (bfloat16_t.assign 0x80000000).raw_bits_ ∧
    bfloat16_t.of_integer static_cast_float 16777219
      = bfloat16_t.of_float (static_cast_float 16777219) :=
  ⟨by decide, by decide,
    C7_fast_path_agrees 0x80000000 (by decide) (by decide) 16777219 (by decide) (by decide)⟩

/-! ## Compound assignment -/

/-- C8: for every `bfloat16_t` value `x` (16-bit `raw_bits_`) and float `a`,
after `x += a` the value is `operator=(float)` applied to `float(x) + a`, where
`float(x)` is the exact pattern `raw_bits_ * 2^16` and `+` is binary32 addition
taken abstractly; likewise for `-=`, `*=` and `/=`. -/
theorem C8_compound_assignment (fadd fsub fmul fdiv : Nat → Nat → Nat) (x : bfloat16_t)
    (hx : x.raw_bits_ < 2 ^ 16) (a : Nat) :
    bfloat16_t.add_assign fadd x a = bfloat16_t.assign (fadd (x.raw_bits_ * 2 ^ 16) a) ∧
    bfloat16_t.sub_assign fsub x a = bfloat16_t.assign (fsub (x.raw_bits_ * 2 ^ 16) a) ∧
    bfloat16_t.mul_assign fmul x a = bfloat16_t.assign (fmul (x.raw_bits_ * 2 ^ 16) a) ∧
    bfloat16_t.div_assign fdiv x a = bfloat16_t.assign (fdiv (x.raw_bits_ * 2 ^ 16) a) := by
  have e : bfloat16_t.to_float x = x.raw_bits_ * 2 ^ 16 := by
    rw [to_float_eq]
    omega
  unfold bfloat16_t.add_assign bfloat16_t.sub_assign bfloat16_t.mul_assign
    bfloat16_t.div_assign
  rw [e]
  exact ⟨rfl, rfl, rfl, rfl⟩

/-- Witness for C8 at `x = 1.0` (`0x3F80`) and `a = 1.0` (`0x3F800000`), with
operations that return the patterns of `1.0 + 1.0`, `1.0 - 1.0`, `1.0 * 1.0` and
`1.0 / 1.0` at every input. -/
theorem C8_compound_assignment_witness :
    bfloat16_t.add_assign (fun _ _ => 0x40000000) ⟨0x3F80⟩ 0x3F800000
      = bfloat16_t.assign 0x40000000 ∧
    (bfloat16_t.add_assign (fun _ _ => 0x40000000) ⟨0x3F80⟩ 0x3F800000).raw_bits_
      = 0x4000 :=
  ⟨(C8_compound_assignment (fun _ _ => 0x40000000) (fun _ _ => 0x00000000)
      (fun _ _ => 0x3F800000) (fun _ _ => 0x3F800000) ⟨0x3F80⟩ (by decide) 0x3F800000).1,
   by decide⟩

/-! ## `bit_cast` copies bytes -/

/-- C9: for same-size storage, byte `i` of `bit_cast<T>(u)` is byte `i` of `u`
for every `i < sizeof(U)`, and casting back gives `u`; with the little-endian
layout, `bit_cast<std::array<uint16_t,2>>` of a 32-bit `x` has element 0
`x mod 2^16` and element 1 `x div 2^16`, and casting that array back to
`uint32_t` gives `x`. -/
theorem C9_bit_cast_copies_bytes (t t2 u : List Nat) (hsz : t.length = u.length)
    (hsz2 : t2.length = u.length) (x : Nat) (hx : x < 2 ^ 32) :
    (∀ i : Nat, i < u.length → (bit_cast t u)[i]? = u[i]?) ∧
    bit_cast t2 (bit_cast t u) = u ∧
    bit_cast_to_array16 x = (x % 2 ^ 16, x / 2 ^ 16) ∧
    bit_cast_array16_to_uint32 (bit_cast_to_array16 x) = x := by
  refine ⟨?_, ?_, ?_, ?_⟩
  · intro i hi
    unfold bit_cast
    rw [bit_cast_loop_getElem? u u.length t (Nat.le_refl _) hsz i, if_pos hi]
  · rw [bit_cast_same_size t u hsz, bit_cast_same_size t2 u hsz2]
  · rw [bit_cast_to_array16_eq, Prod.mk.injEq]
    constructor <;> omega
  · rw [bit_cast_array16_to_uint32_eq, bit_cast_to_array16_eq]
    show x % 65536 % 65536 + 65536 * (x / 65536 % 65536 % 65536) = x
    omega

/-- Witness for C9: result storage holding other bytes, and the pattern of 1.0625. -/
theorem C9_bit_cast_copies_bytes_witness :
    bit_cast [9, 9, 9, 9] [0x78, 0x56, 0x34, 0x12] = [0x78, 0x56, 0x34, 0x12] ∧
    bit_cast [1, 2, 3, 4] (bit_cast [9, 9, 9, 9] [0x78, 0x56, 0x34, 0x12])
      = [0x78, 0x56, 0x34, 0x12] ∧
    bit_cast_to_array16 0x3F880000 = (0x3F880000 % 2 ^ 16, 0x3F880000 / 2 ^ 16) ∧
    bit_cast_array16_to_uint32 (bit_cast_to_array16 0x3F880000) = 0x3F880000 :=
  ⟨by decide,
    (C9_bit_cast_copies_bytes [9, 9, 9, 9] [1, 2, 3, 4] [0x78, 0x56, 0x34, 0x12] rfl rfl
      0x3F880000 (by decide)).2⟩

/-! ## `DataType`: the descriptor string -/

theorem digit_char_spec :
    ∀ d < 10, (DataType.digit_char d).isDigit = true ∧
      (DataType.digit_char d).toNat - 48 = d := by decide

theorem read_digits_append (a b : List Char) (v : Nat) :
    DataType.read_digits (a ++ b) v
      = (DataType.read_digits a v).bind (DataType.read_digits b) := by
  induction a generalizing v with
  | nil => rfl
  | cons c cs ih =>
    simp only [List.cons_append, DataType.read_digits]
    split_ifs
    · exact ih _
    · rfl

theorem decimal_digits_spec (fuel : Nat) :
    ∀ n acc, n < 10 ^ (fuel + 1) →
      ∃ l, l ≠ [] ∧ DataType.decimal_digits (fuel + 1) n acc = l ++ acc ∧
        ∀ v, DataType.read_digits l v = some (v * 10 ^ l.length + n) := by
  induction fuel with
  | zero =>
    intro n acc hn
    have hn10 : n < 10 := by simpa using hn
    refine ⟨[DataType.digit_char n], by simp, by simp [DataType.decimal_digits, hn10], ?_⟩
    intro v
    obtain ⟨h1, h2⟩ := digit_char_spec n hn10
    simp only [DataType.read_digits, h1, if_true, h2, List.length_singleton, pow_one]
    congr 1
    omega
  | succ k ih =>
    intro n acc hn
    by_cases hn10 : n < 10
    · refine ⟨[DataType.digit_char n], by simp, ?_, ?_⟩
      · rw [DataType.decimal_digits, if_pos hn10]; rfl
      · intro v
        obtain ⟨h1, h2⟩ := digit_char_spec n hn10
        simp only [DataType.read_digits, h1, if_true, h2, List.length_singleton, pow_one]
        congr 1
        omega
    · have hq : n / 10 < 10 ^ (k + 1) := by
        rw [pow_succ] at hn
        omega
      obtain ⟨l, _, hl2, hl3⟩ := ih (n / 10) (DataType.digit_char (n % 10) :: acc) hq
      refine ⟨l ++ [DataType.digit_char (n % 10)], by simp, ?_, ?_⟩
      · rw [DataType.decimal_digits, if_neg hn10, hl2]
        simp
      · intro v
        obtain ⟨h1, h2⟩ := digit_char_spec (n % 10) (by omega)
        rw [read_digits_append, hl3 v]
        simp only [Option.some_bind, DataType.read_digits, h1, if_true, h2,
          List.length_append, List.length_singleton]
        congr 1
        rw [pow_succ]
        have := Nat.div_add_mod n 10
        nlinarith [this]

theorem read_width_decimal (n : Nat) :
    DataType.read_width (DataType.decimal_digits (n + 1) n []) = some n := by
  have hlt : n < 10 ^ (n + 1) :=
    Nat.lt_of_lt_of_le (Nat.lt_pow_self (by norm_num) n)
      (Nat.pow_le_pow_right (by norm_num) (Nat.le_succ n))
  obtain ⟨l, hl1, hl2, hl3⟩ := decimal_digits_spec n n [] hlt
  rw [hl2, List.append_nil]
  unfold DataType.read_width
  rw [if_neg hl1, hl3 0]
  simp

theorem DataType_eq_of_fields (a b : DataType) (h1 : a.type = b.type)
    (h2 : a.bit_width = b.bit_width) : a = b := by
  cases a; cases b; simp_all

theorem from_string_of_name (k : DataType_Type) (p ds : List Char)
    (hkp : (k, p) ∈ DataType.type_names) :
    DataType.from_string (p ++ ds) =
      match DataType.read_width ds with
      | none => DataType.invalid
      | some w =>
        if h : w < 2 ^ 31 then
          if 0 < w then ⟨k, (w : Int), by omega⟩ else DataType.invalid
        else DataType.invalid := by
  simp only [DataType.type_names, List.mem_cons, Prod.mk.injEq, List.mem_singleton,
    List.not_mem_nil, or_false] at hkp
  rcases hkp with ⟨rfl, rfl⟩ | ⟨rfl, rfl⟩ | ⟨rfl, rfl⟩ | ⟨rfl, rfl⟩ | ⟨rfl, rfl⟩ | ⟨rfl, rfl⟩ <;>
    simp [DataType.from_string, DataType.type_names, List.isPrefixOf]

theorem from_string_fields (k : DataType_Type) (p ds : List Char) (w : Nat)
    (hkp : (k, p) ∈ DataType.type_names) (hrw : DataType.read_width ds = some w)
    (hpos : 0 < w) (hlt : w < 2 ^ 31) :
    (DataType.from_string (p ++ ds)).type = k ∧
    (DataType.from_string (p ++ ds)).bit_width = (w : Int) := by
  rw [from_string_of_name k p ds hkp, hrw]
  simp only [hlt, hpos, dite_true, if_true, and_self]

theorem type_name_mem (k : DataType_Type) (hk : k ≠ DataType_Type.UNKNOWN) :
    ∃ p, DataType.type_name k = some p ∧ (k, p) ∈ DataType.type_names := by
  cases k <;>
    first
    | exact absurd rfl hk
    | exact ⟨_, rfl, by decide⟩

/-- C10: for every valid `DataType d` (a kind other than `UNKNOWN` and
`bit_width > 0`), `DataType(d.to_string()) == d`: the string constructor applied
to the canonical string gives back the same type and the same bit width. -/
theorem C10_string_round_trip (d : DataType) (hv : d.valid = true) :
    DataType.from_string (DataType.to_string d) = d ∧
    DataType.eq_op (DataType.from_string (DataType.to_string d)) d = true ∧
    (DataType.from_string (DataType.to_string d)).type = d.type ∧
    (DataType.from_string (DataType.to_string d)).bit_width = d.bit_width := by
  have key : DataType.from_string (DataType.to_string d) = d := by
    obtain ⟨k, w, hr⟩ := d
    simp only [DataType.valid, Bool.and_eq_true, decide_eq_true_eq] at hv
    obtain ⟨hk, hw⟩ := hv
    have hdec : DataType.decimal w
        = DataType.decimal_digits (w.toNat + 1) w.toNat [] := by
      unfold DataType.decimal
      rw [if_neg (by omega)]
    have hwn : ((w.toNat : Nat) : Int) = w := by omega
    have hpos : 0 < w.toNat := by omega
    have hlt : w.toNat < 2 ^ 31 := by omega
    have hrd := read_width_decimal w.toNat
    obtain ⟨p, hp, hkp⟩ := type_name_mem k hk
    have hts : DataType.to_string ⟨k, w, hr⟩ = p ++ DataType.decimal w := by
      simp only [DataType.to_string, hp]
    rw [hts, hdec]
    obtain ⟨h1, h2⟩ := from_string_fields k p _ w.toNat hkp hrd hpos hlt
    exact DataType_eq_of_fields _ _ h1 (by rw [h2]; exact hwn)
  rw [key]
  simp [DataType.eq_op]

/-- Witness for C10 at `BFLOAT16`, whose name contains the name `FLOAT`. -/
theorem C10_string_round_trip_witness :
    DataType.to_string ⟨DataType_Type.BFLOAT, 16, by decide⟩
      = ['B', 'F', 'L', 'O', 'A', 'T', '1', '6'] ∧
    DataType.from_string (DataType.to_string ⟨DataType_Type.BFLOAT, 16, by decide⟩)
      = ⟨DataType_Type.BFLOAT, 16, by decide⟩ :=
  ⟨by decide, (C10_string_round_trip ⟨DataType_Type.BFLOAT, 16, by decide⟩ (by decide)).1⟩

/-! ## `DataType`: the string constructor -/

theorem type_names_known (k : DataType_Type) (p : List Char)
    (hkp : (k, p) ∈ DataType.type_names) : k ≠ DataType_Type.UNKNOWN := by
  simp only [DataType.type_names, List.mem_cons, Prod.mk.injEq, List.mem_singleton,
    List.not_mem_nil, or_false] at hkp
  rcases hkp with ⟨rfl, _⟩ | ⟨rfl, _⟩ | ⟨rfl, _⟩ | ⟨rfl, _⟩ | ⟨rfl, _⟩ | ⟨rfl, _⟩ <;> decide

theorem from_string_no_name (s : List Char)
    (h : ∀ q ∈ DataType.type_names, ¬ q.2 <+: s) :
    DataType.from_string s = DataType.invalid := by
  have hf : DataType.type_names.find? (fun p => p.2.isPrefixOf s) = none := by
    rw [List.find?_eq_none]
    intro q hq
    rw [List.isPrefixOf_iff_prefix]
    exact h q hq
  unfold DataType.from_string
  rw [hf]

theorem read_digits_none (ds : List Char) (v : Nat)
    (h : ∃ c ∈ ds, c.isDigit = false) : DataType.read_digits ds v = none := by
  induction ds generalizing v with
  | nil => simp at h
  | cons c cs ih =>
    unfold DataType.read_digits
    by_cases hc : c.isDigit = true
    · rw [if_pos hc]
      apply ih
      obtain ⟨c2, hc2, hd⟩ := h
      rcases List.mem_cons.1 hc2 with rfl | hm
      · rw [hc] at hd; exact absurd hd (by decide)
      · exact ⟨c2, hm, hd⟩
    · rw [if_neg hc]

theorem read_digits_value (ds : List Char) (v : Nat)
    (h : ∀ c ∈ ds, c.isDigit = true) :
    DataType.read_digits ds v
      = some (v * 10 ^ ds.length + DataType.decimal_value ds) := by
  induction ds generalizing v with
  | nil => simp [DataType.read_digits, DataType.decimal_value]
  | cons c cs ih =>
    have hc : c.isDigit = true := h c (List.mem_cons_self _ _)
    have hcs : ∀ d ∈ cs, d.isDigit = true := fun d hd => h d (List.mem_cons_of_mem _ hd)
    unfold DataType.read_digits
    rw [if_pos hc, ih _ hcs]
    congr 1
    simp only [DataType.decimal_value, List.reverse_cons, List.map_append, List.map_cons,
      List.map_nil, Nat.ofDigits_append, List.length_map, List.length_reverse,
      Nat.ofDigits_singleton, List.length_cons, pow_succ]
    ring

theorem read_width_value (ds : List Char) (hne : ds ≠ [])
    (h : ∀ c ∈ ds, c.isDigit = true) :
    DataType.read_width ds = some (DataType.decimal_value ds) := by
  unfold DataType.read_width
  rw [if_neg hne, read_digits_value ds 0 h]
  simp

/-- C11 as stated fails: the digits `2147483648` denote a positive integer, but
the string constructor applied to `INT2147483648` does not give a valid
descriptor with that bit width, because no `std::int32_t` holds it. -/
theorem C11_string_constructor_counterexample :
    DataType.decimal_value ['2', '1', '4', '7', '4', '8', '3', '6', '4', '8'] = 2147483648 ∧
    ¬ ((DataType.from_string
          ['I', 'N', 'T', '2', '1', '4', '7', '4', '8', '3', '6', '4', '8']).valid = true ∧
       (DataType.from_string
          ['I', 'N', 'T', '2', '1', '4', '7', '4', '8', '3', '6', '4', '8']).bit_width
        = 2147483648) := by
  refine ⟨by simp [DataType.decimal_value, Nat.ofDigits], ?_⟩
  rintro ⟨_, h⟩
  have hr := (DataType.from_string
    ['I', 'N', 'T', '2', '1', '4', '7', '4', '8', '3', '6', '4', '8']).bit_width_range
  rw [h] at hr
  omega

/-- C11, amended: the string constructor returns a descriptor for every string;
it is invalid when the string starts with none of the names `XUINT`, `XINT`,
`UINT`, `INT`, `FLOAT`, `BFLOAT`, when the characters after the name are not a
decimal integer (empty, or with a character that is not a digit), and when that
integer is zero; a name followed by digits denoting `w` with `0 < w < 2^31`, a
positive `std::int32_t`, gives the valid descriptor of that kind with bit width
`w`, so `UINT8` is unsigned and `XUINT8` extended-unsigned. -/
theorem C11_string_constructor (s : List Char) (k : DataType_Type) (p ds : List Char)
    (hkp : (k, p) ∈ DataType.type_names) :
    ((∀ q ∈ DataType.type_names, ¬ q.2 <+: s) →
      (DataType.from_string s).valid = false) ∧
    ((ds = [] ∨ ∃ c ∈ ds, c.isDigit = false) →
      (DataType.from_string (p ++ ds)).valid = false) ∧
    (ds ≠ [] → (∀ c ∈ ds, c.isDigit = true) → DataType.decimal_value ds = 0 →
      (DataType.from_string (p ++ ds)).valid = false) ∧
    (ds ≠ [] → (∀ c ∈ ds, c.isDigit = true) → 0 < DataType.decimal_value ds →
      DataType.decimal_value ds < 2 ^ 31 →
      (DataType.from_string (p ++ ds)).type = k ∧
      (DataType.from_string (p ++ ds)).bit_width = (DataType.decimal_value ds : Int) ∧
      (DataType.from_string (p ++ ds)).valid = true) ∧
    DataType.from_string ['U', 'I', 'N', 'T', '8'] = ⟨DataType_Type.UINT, 8, by decide⟩ ∧
    DataType.from_string ['X', 'U', 'I', 'N', 'T', '8']
      = ⟨DataType_Type.XUINT, 8, by decide⟩ := by
  have hk := type_names_known k p hkp
  refine ⟨?_, ?_, ?_, ?_, by decide, by decide⟩
  · intro h
    rw [from_string_no_name s h]
    decide
  · intro h
    rw [from_string_of_name k p ds hkp]
    have hr : DataType.read_width ds = none := by
      unfold DataType.read_width
      rcases h with h | h
      · rw [if_pos h]
      · split_ifs
        · rfl
        · exact read_digits_none ds 0 h
    rw [hr]
    rfl
  · intro hne hd h0
    rw [from_string_of_name k p ds hkp, read_width_value ds hne hd, h0]
    rfl
  · intro hne hd hpos hlt
    obtain ⟨h1, h2⟩ := from_string_fields k p ds _ hkp (read_width_value ds hne hd) hpos hlt
    refine ⟨h1, h2, ?_⟩
    simp only [DataType.valid, Bool.and_eq_true, decide_eq_true_eq]
    rw [h1, h2]
    exact ⟨hk, by exact_mod_cast hpos⟩

/-- Witness for C11 at the string `int8`, which starts with no name, at the name
`INT` with the suffix `3x`, and at `INT32`, which is the valid descriptor of
kind `INT` and bit width 32. -/
theorem C11_string_constructor_witness :
    (DataType.from_string ['i', 'n', 't', '8']).valid = false ∧
    (DataType.from_string ['I', 'N', 'T', '3', 'x']).valid = false ∧
    ((DataType.from_string ['I', 'N', 'T', '3', '2']).type = DataType_Type.INT ∧
      (DataType.from_string ['I', 'N', 'T', '3', '2']).bit_width
        = (DataType.decimal_value ['3', '2'] : Int) ∧
      (DataType.from_string ['I', 'N', 'T', '3', '2']).valid = true) ∧
    DataType.from_string ['I', 'N', 'T', '3', '2'] = ⟨DataType_Type.INT, 32, by decide⟩ :=
  ⟨(C11_string_constructor ['i', 'n', 't', '8'] DataType_Type.INT ['I', 'N', 'T']
      ['3', 'x'] (by decide)).1 (by decide),
   (C11_string_constructor ['i', 'n', 't', '8'] DataType_Type.INT ['I', 'N', 'T']
      ['3', 'x'] (by decide)).2.1 (Or.inr ⟨'x', by decide, by decide⟩),
   (C11_string_constructor ['i', 'n', 't', '8'] DataType_Type.INT ['I', 'N', 'T']
      ['3', '2'] (by decide)).2.2.2.1 (by decide) (by decide)
      (by simp [DataType.decimal_value, Nat.ofDigits])
      (by simp [DataType.decimal_value, Nat.ofDigits]),
   by decide⟩

/-! ## Native descriptors -/

/-- C12: the generic `create_data_type<T>()` returns `DataType("UNKNOWN0")`, and
that descriptor is invalid: `valid()` is false. -/
theorem C12_generic_create_data_type_invalid :
    create_data_type = DataType.from_string DataType.sentinel ∧
    create_data_type.valid = false ∧
    create_data_type.type = DataType_Type.UNKNOWN := by
  decide

/-- C13: `create_data_type<std::int32_t>().to_string()` is `INT32`, for `float`
it is `FLOAT32`, for `std::uint16_t` it is `UINT16`; every registered native
type `T` maps to a valid descriptor whose bit width is `get_bit_width<T>()`,
that is `sizeof(T) * CHAR_BIT`. -/
theorem C13_native_type_mapping (char_kind : DataType_Type)
    (hck : char_kind ≠ DataType_Type.UNKNOWN) (T : NativeType) :
    DataType.to_string (create_data_type_native char_kind NativeType.int32_t)
      = ['I', 'N', 'T', '3', '2'] ∧
    DataType.to_string (create_data_type_native char_kind NativeType.float)
      = ['F', 'L', 'O', 'A', 'T', '3', '2'] ∧
    DataType.to_string (create_data_type_native char_kind NativeType.uint16_t)
      = ['U', 'I', 'N', 'T', '1', '6'] ∧
    (create_data_type_native char_kind T).valid = true ∧
    (create_data_type_native char_kind T).bit_width = get_bit_width T ∧
    get_bit_width T = ((sizeof T * CHAR_BIT : Nat) : Int) := by
  have h1 : DataType.to_string ⟨DataType_Type.INT, 32, by decide⟩ = ['I', 'N', 'T', '3', '2'] := by
    decide
  have h2 : DataType.to_string ⟨DataType_Type.FLOAT, 32, by decide⟩
      = ['F', 'L', 'O', 'A', 'T', '3', '2'] := by decide
  have h3 : DataType.to_string ⟨DataType_Type.UINT, 16, by decide⟩
      = ['U', 'I', 'N', 'T', '1', '6'] := by
    decide
  refine ⟨h1, h2, h3, ?_, ?_, ?_⟩
  · cases T <;>
      simp [create_data_type_native, DataType.valid, hck]
  · cases T <;> rfl
  · cases T <;> decide

/-- Witness for C13 at plain `char`, taken as a signed-integer kind. -/
theorem C13_native_type_mapping_witness :
    (create_data_type_native DataType_Type.INT NativeType.char).valid = true ∧
    (create_data_type_native DataType_Type.INT NativeType.char).bit_width = 8 ∧
    get_bit_width NativeType.char = 8 :=
  ⟨(C13_native_type_mapping DataType_Type.INT (by decide) NativeType.char).2.2.2.1,
   by decide, by decide⟩

/-! ## Sign, magnitude and order of the converted value -/

theorem non_nan_magnitude (f : Nat) (hn : fpclassify f ≠ FpClass.FP_NAN) :
    f % 2147483648 ≤ 2139095040 := by
  by_contra hcon
  apply hn
  rw [fpclassify_nan_iff]
  unfold exponent_field mantissa_field
  constructor <;> omega

/-- Off the NaN case `operator=(float)` keeps the sign and rounds the
magnitude: magnitudes below `2^23` go to 0, the others to the upper half of the
biased sum. -/
theorem assign_non_nan (f : Nat) (hf : f < 2 ^ 32) (hn : fpclassify f ≠ FpClass.FP_NAN) :
    (bfloat16_t.assign f).raw_bits_ = 32768 * (f / 2147483648) +
      (if f % 2147483648 < 8388608 then 0
       else (f % 2147483648 + 32767 + f % 2147483648 / 65536 % 2) / 65536) := by
  have hflush : exponent_field f = 0 →
      (bfloat16_t.assign f).raw_bits_ = 32768 * (f / 2147483648) +
        (if f % 2147483648 < 8388608 then 0
         else (f % 2147483648 + 32767 + f % 2147483648 / 65536 % 2) / 65536) := by
    intro he
    rw [assign_flush f he]
    unfold exponent_field at he
    have hm : f % 2147483648 < 8388608 := by omega
    rw [if_pos hm]
    omega
  cases hc : fpclassify f with
  | FP_NAN => exact absurd hc hn
  | FP_ZERO => exact hflush ((fpclassify_zero_or_subnormal_iff f).1 (Or.inl hc))
  | FP_SUBNORMAL => exact hflush ((fpclassify_zero_or_subnormal_iff f).1 (Or.inr hc))
  | FP_INFINITE =>
    have he := (fpclassify_infinite_iff f).1 hc
    unfold exponent_field mantissa_field at he
    rw [assign_infinite f hc]
    have hm : f % 2147483648 = 2139095040 := by omega
    rw [hm]
    simp only [Nat.reduceLT, if_false]
    omega
  | FP_NORMAL =>
    have hb := normal_lt f hc
    rw [assign_normal f hf hc]
    have hm : ¬ f % 2147483648 < 8388608 := by omega
    rw [if_neg hm]
    have hs : f = 2147483648 * (f / 2147483648) + f % 2147483648 := by omega
    have hbit : f / 65536 % 2 = f % 2147483648 / 65536 % 2 := by omega
    rw [hbit]
    generalize f % 2147483648 = m at *
    generalize f / 2147483648 = s at *
    subst hs
    omega

/-- Rounding of magnitudes is monotone. -/
theorem round_magnitude_mono (a b : Nat) (hab : a ≤ b) :
    (if a < 8388608 then 0 else (a + 32767 + a / 65536 % 2) / 65536) ≤
    (if b < 8388608 then 0 else (b + 32767 + b / 65536 % 2) / 65536) := by
  by_cases ha : a < 8388608
  · rw [if_pos ha]; exact Nat.zero_le _
  · have hb : ¬ b < 8388608 := by omega
    rw [if_neg ha, if_neg hb]
    have h1 : (a + 32767 + a / 65536 % 2) / 65536
        = a / 65536 + (a % 65536 + 32767 + a / 65536 % 2) / 65536 := by omega
    have h2 : (b + 32767 + b / 65536 % 2) / 65536
        = b / 65536 + (b % 65536 + 32767 + b / 65536 % 2) / 65536 := by omega
    rw [h1, h2]
    by_cases hq : a / 65536 = b / 65536
    · rw [hq]
      have : a % 65536 ≤ b % 65536 := by omega
      omega
    · have hlt : a / 65536 < b / 65536 := by
        have := Nat.div_le_div_right (c := 65536) hab
        omega
      omega

theorem round_magnitude_lt (m : Nat) (hm : m ≤ 2139095040) :
    (if m < 8388608 then 0 else (m + 32767 + m / 65536 % 2) / 65536) ≤ 32640 := by
  split_ifs
  · omega
  · omega

theorem round_magnitude_ge (m : Nat) :
    (if m < 8388608 then 0 else (m + 32767 + m / 65536 % 2) / 65536) = 0 ∨
    128 ≤ (if m < 8388608 then 0 else (m + 32767 + m / 65536 % 2) / 65536) := by
  split_ifs
  · exact Or.inl rfl
  · right; omega

theorem assign_canonical (f : Nat) (hf : f < 2 ^ 32) :
    ((bfloat16_t.assign f).raw_bits_ / 2 ^ 7 % 256 = 0 →
      (bfloat16_t.assign f).raw_bits_ % 2 ^ 7 = 0) ∧
    ((bfloat16_t.assign f).raw_bits_ / 2 ^ 7 % 256 = 255 →
      (bfloat16_t.assign f).raw_bits_ % 2 ^ 7 ≠ 0 →
      (bfloat16_t.assign f).raw_bits_.testBit 6 = true) := by
  by_cases hn : fpclassify f = FpClass.FP_NAN
  · have he := (fpclassify_nan_iff f).1 hn
    unfold exponent_field at he
    rw [assign_nan f hn, or_64]
    have hh : f / 65536 % 65536 / 128 % 256 = 255 := by omega
    generalize f / 65536 % 65536 = h at hh
    have h6 : (h + 64 - h / 64 % 2 * 64) / 64 % 2 = 1 := by omega
    have h7 : (h + 64 - h / 64 % 2 * 64) / 128 % 256 = 255 := by omega
    generalize h + 64 - h / 64 % 2 * 64 = r at h6 h7
    refine ⟨by omega, ?_⟩
    intro _ _
    rw [Nat.testBit_to_div_mod]
    simpa using h6
  · rw [assign_non_nan f hf hn]
    have hg := round_magnitude_lt (f % 2147483648) (non_nan_magnitude f hn)
    have hg2 := round_magnitude_ge (f % 2147483648)
    generalize (if f % 2147483648 < 8388608 then 0
      else (f % 2147483648 + 32767 + f % 2147483648 / 65536 % 2) / 65536) = g at hg hg2
    have hs : f / 2147483648 < 2 := by omega
    generalize f / 2147483648 = s at hs
    have hexp : (32768 * s + g) / 2 ^ 7 % 256 = g / 128 := by omega
    have hman : (32768 * s + g) % 2 ^ 7 = g % 128 := by omega
    rw [hexp, hman]
    constructor
    · intro h0
      omega
    · intro h255 hne
      omega

/-! ## The fused bulk addition -/

theorem foldl_set_getElem? {α : Type} (g : Nat → α) (n : Nat) (out : List α) (j : Nat) :
    ((List.range n).foldl (fun o i => o.set i (g i)) out)[j]? =
      if j < n ∧ j < out.length then some (g j) else out[j]? := by
  induction n with
  | zero => simp
  | succ k ih =>
    have hlen : ((List.range k).foldl (fun o i => o.set i (g i)) out).length = out.length := by
      clear ih
      induction k with
      | zero => simp
      | succ m ihm =>
        simp only [List.range_succ, List.foldl_append, List.foldl_cons, List.foldl_nil,
          List.length_set]
        exact ihm
    simp only [List.range_succ, List.foldl_append, List.foldl_cons, List.foldl_nil]
    rw [List.getElem?_set, hlen, ih]
    by_cases hkj : k = j
    · subst hkj
      by_cases hko : k < out.length
      · simp [hko]
      · have : out.length ≤ k := by omega
        simp [hko, List.getElem?_eq_none this]
    · rw [if_neg hkj]
      by_cases h1 : j < k ∧ j < out.length
      · have h2 : j < k + 1 ∧ j < out.length := ⟨by omega, h1.2⟩
        rw [if_pos h1, if_pos h2]
      · have h2 : ¬ (j < k + 1 ∧ j < out.length) := by
          intro h
          exact h1 ⟨by omega, h.2⟩
        rw [if_neg h1, if_neg h2]

/-- C14: for float arrays `inp0`, `inp1` and an output array of at least `n`
elements, `add_floats_and_cvt_to_bfloat16` writes, for every `i < n`, the
`bfloat16_t` conversion of the binary32 sum `inp0[i] + inp1[i]` (addition taken
abstractly) and leaves the elements from `n` on unchanged; this is not the sum
of the separately truncated operands: for `1 + 2^-8` and `2^-8`, whose sums
`1 + 2^-7` and `1 + 2^-8` are exact, the fused result is `0x3F81` while
truncating the operands first gives `0x3F80`. -/
theorem C14_fused_add_then_truncate (fadd : Nat → Nat → Nat) (out : List bfloat16_t)
    (inp0 inp1 : List Nat) (n : Nat) (ho : n ≤ out.length) :
    (∀ i a b, i < n → inp0[i]? = some a → inp1[i]? = some b →
      (add_floats_and_cvt_to_bfloat16 fadd out inp0 inp1 n)[i]?
        = some (bfloat16_t.assign (fadd a b))) ∧
    (∀ i, n ≤ i →
      (add_floats_and_cvt_to_bfloat16 fadd out inp0 inp1 n)[i]? = out[i]?) ∧
    (fadd 0x3F808000 0x3B800000 = 0x3F810000 → fadd 0x3F800000 0x3B800000 = 0x3F808000 →
      add_floats_and_cvt_to_bfloat16 fadd [⟨0⟩] [0x3F808000] [0x3B800000] 1 = [⟨0x3F81⟩] ∧
      bfloat16_t.assign (fadd (bfloat16_t.to_float (bfloat16_t.assign 0x3F808000))
        (bfloat16_t.to_float (bfloat16_t.assign 0x3B800000))) = ⟨0x3F80⟩) := by
  refine ⟨?_, ?_, ?_⟩
  · intro i a b hi ha hb
    unfold add_floats_and_cvt_to_bfloat16
    rw [foldl_set_getElem?, if_pos ⟨hi, by omega⟩]
    simp [List.getD_eq_getElem?_getD, ha, hb, bfloat16_t.of_float]
  · intro i hi
    unfold add_floats_and_cvt_to_bfloat16
    rw [foldl_set_getElem?, if_neg (by omega)]
  · intro h1 h2
    have e1 : bfloat16_t.to_float (bfloat16_t.assign 0x3F808000) = 0x3F800000 := by decide
    have e2 : bfloat16_t.to_float (bfloat16_t.assign 0x3B800000) = 0x3B800000 := by decide
    have e3 : bfloat16_t.assign 0x3F810000 = ⟨0x3F81⟩ := by decide
    have e4 : bfloat16_t.assign 0x3F808000 = ⟨0x3F80⟩ := by decide
    constructor
    · simp [add_floats_and_cvt_to_bfloat16, List.range, List.range.loop, bfloat16_t.of_float,
        h1, e3]
    · rw [e1, e2, h2, e4]

/-- Witness for C14 on one-element arrays, with an addition that returns the
exact sums `1 + 2^-7` and `1 + 2^-8` of the two pairs of operands used. -/
theorem C14_fused_add_then_truncate_witness :
    add_floats_and_cvt_to_bfloat16
        (fun a _ => if a = 0x3F808000 then 0x3F810000 else 0x3F808000)
        [⟨0⟩] [0x3F808000] [0x3B800000] 1 = [⟨0x3F81⟩] ∧
    bfloat16_t.assign ((fun a _ => if a = 0x3F808000 then 0x3F810000 else 0x3F808000)
        (bfloat16_t.to_float (bfloat16_t.assign 0x3F808000))
        (bfloat16_t.to_float (bfloat16_t.assign 0x3B800000))) = ⟨0x3F80⟩ :=
  (C14_fused_add_then_truncate
    (fun a _ => if a = 0x3F808000 then 0x3F810000 else 0x3F808000)
    [⟨0⟩] [0x3F808000] [0x3B800000] 1 (by decide)).2.2 (by decide) (by decide)

/-! ## Values reachable by conversion -/

/-- C15: for every 32-bit pattern `f` the `raw_bits_` produced by
`operator=(float)` is never a bfloat16 subnormal (exponent field 0 implies
mantissa 0) and never a signalling NaN (exponent field 255 with non-zero
mantissa implies bit 6 set); the same holds after `+=`, `-=`, `*=` and `/=`,
whose float operations return 32-bit patterns. -/
theorem C15_results_canonical (f : Nat) (hf : f < 2 ^ 32)
    (fadd fsub fmul fdiv : Nat → Nat → Nat)
    (hadd : ∀ p q, fadd p q < 2 ^ 32) (hsub : ∀ p q, fsub p q < 2 ^ 32)
    (hmul : ∀ p q, fmul p q < 2 ^ 32) (hdiv : ∀ p q, fdiv p q < 2 ^ 32)
    (x : bfloat16_t) (a : Nat) :
    (((bfloat16_t.assign f).raw_bits_ / 2 ^ 7 % 256 = 0 →
        (bfloat16_t.assign f).raw_bits_ % 2 ^ 7 = 0) ∧
      ((bfloat16_t.assign f).raw_bits_ / 2 ^ 7 % 256 = 255 →
        (bfloat16_t.assign f).raw_bits_ % 2 ^ 7 ≠ 0 →
        (bfloat16_t.assign f).raw_bits_.testBit 6 = true)) ∧
    (((bfloat16_t.add_assign fadd x a).raw_bits_ / 2 ^ 7 % 256 = 0 →
        (bfloat16_t.add_assign fadd x a).raw_bits_ % 2 ^ 7 = 0) ∧
      ((bfloat16_t.add_assign fadd x a).raw_bits_ / 2 ^ 7 % 256 = 255 →
        (bfloat16_t.add_assign fadd x a).raw_bits_ % 2 ^ 7 ≠ 0 →
        (bfloat16_t.add_assign fadd x a).raw_bits_.testBit 6 = true)) ∧
    (((bfloat16_t.sub_assign fsub x a).raw_bits_ / 2 ^ 7 % 256 = 0 →
        (bfloat16_t.sub_assign fsub x a).raw_bits_ % 2 ^ 7 = 0) ∧
      ((bfloat16_t.sub_assign fsub x a).raw_bits_ / 2 ^ 7 % 256 = 255 →
        (bfloat16_t.sub_assign fsub x a).raw_bits_ % 2 ^ 7 ≠ 0 →
        (bfloat16_t.sub_assign fsub x a).raw_bits_.testBit 6 = true)) ∧
    (((bfloat16_t.mul_assign fmul x a).raw_bits_ / 2 ^ 7 % 256 = 0 →
        (bfloat16_t.mul_assign fmul x a).raw_bits_ % 2 ^ 7 = 0) ∧
      ((bfloat16_t.mul_assign fmul x a).raw_bits_ / 2 ^ 7 % 256 = 255 →
        (bfloat16_t.mul_assign fmul x a).raw_bits_ % 2 ^ 7 ≠ 0 →
        (bfloat16_t.mul_assign fmul x a).raw_bits_.testBit 6 = true)) ∧
    (((bfloat16_t.div_assign fdiv x a).raw_bits_ / 2 ^ 7 % 256 = 0 →
        (bfloat16_t.div_assign fdiv x a).raw_bits_ % 2 ^ 7 = 0) ∧
      ((bfloat16_t.div_assign fdiv x a).raw_bits_ / 2 ^ 7 % 256 = 255 →
        (bfloat16_t.div_assign fdiv x a).raw_bits_ % 2 ^ 7 ≠ 0 →
        (bfloat16_t.div_assign fdiv x a).raw_bits_.testBit 6 = true)) :=
  ⟨assign_canonical f hf, assign_canonical _ (hadd _ _), assign_canonical _ (hsub _ _),
    assign_canonical _ (hmul _ _), assign_canonical _ (hdiv _ _)⟩

/-- Witness for C15 at the smallest positive subnormal, which is flushed to
zero, with operations that return `+inf` at every input. -/
theorem C15_results_canonical_witness :
    (bfloat16_t.assign 0x00000001).raw_bits_ = 0 ∧
    ((bfloat16_t.assign 0x00000001).raw_bits_ / 2 ^ 7 % 256 = 0 →
      (bfloat16_t.assign 0x00000001).raw_bits_ % 2 ^ 7 = 0) :=
  ⟨by decide,
    (C15_results_canonical 0x00000001 (by decide) (fun _ _ => 0x7F800000)
      (fun _ _ => 0x7F800000) (fun _ _ => 0x7F800000) (fun _ _ => 0x7F800000)
      (fun _ _ => by norm_num) (fun _ _ => by norm_num) (fun _ _ => by norm_num)
      (fun _ _ => by norm_num) ⟨0⟩ 0).1.1⟩

/-- C16: for every 16-bit pattern `b`, constructing a `bfloat16_t` from
`operator float()` of `raw_bits_ = b` gives `raw_bits_ = b` exactly when `b` is
not a bfloat16 subnormal (exponent field 0, mantissa non-zero) and not a NaN
pattern with bit 6 clear; and a float that is zero, normal or infinite with its
low 16 bits zero converts to its upper 16 bits unchanged. -/
theorem C16_round_trip_fixed_points (b : Nat) (hb : b < 2 ^ 16) (f : Nat) (hf : f < 2 ^ 32) :
    (bfloat16_t.of_float (bfloat16_t.to_float ⟨b⟩) = ⟨b⟩ ↔
      ¬ (b / 2 ^ 7 % 256 = 0 ∧ b % 2 ^ 7 ≠ 0) ∧
      ¬ (b / 2 ^ 7 % 256 = 255 ∧ b % 2 ^ 7 ≠ 0 ∧ b.testBit 6 = false)) ∧
    ((fpclassify f = FpClass.FP_ZERO ∨ fpclassify f = FpClass.FP_NORMAL ∨
        fpclassify f = FpClass.FP_INFINITE) →
      f % 2 ^ 16 = 0 → (bfloat16_t.assign f).raw_bits_ = f / 2 ^ 16) := by
  constructor
  · have e : bfloat16_t.to_float ⟨b⟩ = b * 65536 := by
      rw [to_float_eq]
      show b % 65536 * 65536 = b * 65536
      omega
    have hraw : bfloat16_t.of_float (bfloat16_t.to_float ⟨b⟩) = ⟨b⟩ ↔
        (bfloat16_t.assign (b * 65536)).raw_bits_ = b := by
      unfold bfloat16_t.of_float
      rw [e]
      constructor
      · intro h; rw [h]
      · intro h; exact bfloat16_t_eq_of_raw_bits _ _ h
    have hbit : b.testBit 6 = false ↔ b / 64 % 2 = 0 := by
      rw [Nat.testBit_to_div_mod]
      simp only [decide_eq_false_iff_not]
      omega
    rw [hraw, hbit]
    have hlt : b * 65536 < 2 ^ 32 := by omega
    by_cases hn : fpclassify (b * 65536) = FpClass.FP_NAN
    · have he := (fpclassify_nan_iff _).1 hn
      unfold exponent_field mantissa_field at he
      rw [assign_nan _ hn, or_64]
      have h1 : b * 65536 / 65536 % 65536 = b := by omega
      rw [h1]
      have h2 : b / 2 ^ 7 % 256 = 255 := by omega
      have h3 : b % 2 ^ 7 ≠ 0 := by omega
      constructor
      · intro h
        refine ⟨by omega, ?_⟩
        rintro ⟨_, _, h6⟩
        omega
      · rintro ⟨_, h⟩
        have h6 : b / 64 % 2 = 1 := by
          by_contra hcon
          exact h ⟨h2, h3, by omega⟩
        omega
    · rw [assign_non_nan _ hlt hn]
      have hnn : ¬ (b / 2 ^ 7 % 256 = 255 ∧ b % 2 ^ 7 ≠ 0) := by
        intro h
        apply hn
        rw [fpclassify_nan_iff]
        unfold exponent_field mantissa_field
        constructor <;> omega
      have hs : b * 65536 / 2147483648 = b / 32768 := by omega
      have hm : b * 65536 % 2147483648 = b % 32768 * 65536 := by omega
      rw [hs, hm]
      by_cases hsmall : b % 32768 * 65536 < 8388608
      · rw [if_pos hsmall]
        constructor
        · intro h
          refine ⟨by omega, ?_⟩
          rintro ⟨h1, h2, _⟩
          exact hnn ⟨h1, h2⟩
        · rintro ⟨h, _⟩
          have h0 : b / 2 ^ 7 % 256 = 0 := by omega
          have h1 : b % 2 ^ 7 = 0 := by
            by_contra hcon
            exact h ⟨h0, hcon⟩
          omega
      · rw [if_neg hsmall]
        have hg : (b % 32768 * 65536 + 32767 + b % 32768 * 65536 / 65536 % 2) / 65536
            = b % 32768 := by omega
        rw [hg]
        constructor
        · intro _
          refine ⟨by omega, ?_⟩
          rintro ⟨h1, h2, _⟩
          exact hnn ⟨h1, h2⟩
        · intro _
          omega
  · intro hc hlow
    have hn : fpclassify f ≠ FpClass.FP_NAN := by
      rcases hc with h | h | h <;> rw [h] <;> decide
    rw [assign_non_nan f hf hn]
    by_cases hsmall : f % 2147483648 < 8388608
    · rw [if_pos hsmall]
      have he : exponent_field f = 0 := by unfold exponent_field; omega
      have hz : mantissa_field f = 0 := by
        rcases hc with h | h | h
        · unfold fpclassify at h
          rw [if_pos he] at h
          by_contra hne
          rw [if_neg hne] at h
          exact absurd h (by decide)
        · have := (fpclassify_normal_iff f).1 h
          omega
        · have := (fpclassify_infinite_iff f).1 h
          omega
      unfold mantissa_field at hz
      omega
    · rw [if_neg hsmall]
      omega

/-- Witness for C16: `0x3F80` (1.0) is a fixed point, the subnormal pattern
`0x0001` is not. -/
theorem C16_round_trip_fixed_points_witness :
    bfloat16_t.of_float (bfloat16_t.to_float ⟨0x3F80⟩) = ⟨0x3F80⟩ ∧
    bfloat16_t.of_float (bfloat16_t.to_float ⟨0x0001⟩) ≠ ⟨0x0001⟩ ∧
    (bfloat16_t.assign 0x3F800000).raw_bits_ = 0x3F800000 / 2 ^ 16 :=
  ⟨by decide, by decide,
    (C16_round_trip_fixed_points 0x3F80 (by decide) 0x3F800000 (by decide)).2
      (Or.inr (Or.inl (by decide))) (by decide)⟩

/-- C17: for a normal pattern `x` with magnitude `m = x mod 2^31`, the result of
`operator=(float)` has magnitude `0x7F80` (infinity) exactly when
`m ≥ 0x7F7F8000`, and otherwise has an exponent field between 1 and 254; the
result is never a NaN pattern, and adding the rounding bias neither wraps
around `2^32` nor changes the sign bit, in `operator=(float)` and in
`convert_bits_of_normal_or_zero`. -/
theorem C17_rounding_overflow (x : Nat) (hx : x < 2 ^ 32)
    (hn : fpclassify x = FpClass.FP_NORMAL) :
    ((bfloat16_t.assign x).raw_bits_ % 2 ^ 15 = 0x7F80 ↔ 0x7F7F8000 ≤ x % 2 ^ 31) ∧
    (x % 2 ^ 31 < 0x7F7F8000 →
      1 ≤ (bfloat16_t.assign x).raw_bits_ / 2 ^ 7 % 256 ∧
      (bfloat16_t.assign x).raw_bits_ / 2 ^ 7 % 256 ≤ 254) ∧
    ¬ ((bfloat16_t.assign x).raw_bits_ / 2 ^ 7 % 256 = 255 ∧
      (bfloat16_t.assign x).raw_bits_ % 2 ^ 7 ≠ 0) ∧
    bit_cast_to_uint32 x + (0x00007FFF + ((bit_cast_to_array16 x).2 &&& 0x1)) % 2 ^ 32
      < 2 ^ 32 ∧
    (bit_cast_to_uint32 x + (0x00007FFF + ((bit_cast_to_array16 x).2 &&& 0x1)) % 2 ^ 32)
      / 2 ^ 31 = x / 2 ^ 31 ∧
    x + (0x7FFF + ((x >>> 16) &&& 1)) % 2 ^ 32 < 2 ^ 32 ∧
    (x + (0x7FFF + ((x >>> 16) &&& 1)) % 2 ^ 32) / 2 ^ 31 = x / 2 ^ 31 := by
  have hb := normal_lt x hn
  have hr := assign_normal x hx hn
  rw [hr, bit_cast_to_uint32_eq, bit_cast_to_array16_eq, Nat.shiftRight_eq_div_pow,
    Nat.and_one_is_mod, Nat.and_one_is_mod]
  clear hr hn
  obtain ⟨s, e, m, l, up, hs, he1, he2, hm, hl, hup, hxe, hre, hu1, hu0⟩ :=
    round_fields x hx hb
  rw [hre]
  have hbit1 : x / 65536 % 65536 % 2 = m % 2 := by omega
  have hbit2 : x / 2 ^ 16 % 2 = m % 2 := by omega
  have hmod : x % 4294967296 = x := by omega
  have hsign : x / 2 ^ 31 = s := by omega
  have hmag : x % 2 ^ 31 = 8388608 * e + 65536 * m + l := by omega
  simp only [hbit1, hbit2, hmod, hsign, hmag]
  clear hbit1 hbit2 hmod hsign hmag hre hb
  subst hxe
  have hr15 : (32768 * s + 128 * e + m + up) % 2 ^ 15 = 128 * e + m + up := by omega
  have hexp : (32768 * s + 128 * e + m + up) / 2 ^ 7 % 256 = e + (m + up) / 128 := by omega
  have hman : (32768 * s + 128 * e + m + up) % 2 ^ 7 = (m + up) % 128 := by omega
  have hbias : (32767 + m % 2) % 2 ^ 32 = 32767 + m % 2 := by omega
  rw [hr15, hexp, hman, hbias]
  clear hr15 hexp hman hbias
  refine ⟨?_, ?_, ?_, ?_, ?_, ?_, ?_⟩
  · constructor
    · intro h; omega
    · intro h; omega
  · intro h; omega
  · intro h; omega
  · omega
  · omega
  · omega
  · omega

/-- Witness for C17 at the threshold: `0x7F7F8000` rounds to infinity,
`0x7F7F7FFF` to the largest finite value. -/
theorem C17_rounding_overflow_witness :
    (bfloat16_t.assign 0x7F7F8000).raw_bits_ = 0x7F80 ∧
    (bfloat16_t.assign 0x7F7F7FFF).raw_bits_ = 0x7F7F ∧
    ((bfloat16_t.assign 0x7F7F8000).raw_bits_ % 2 ^ 15 = 0x7F80 ↔
      0x7F7F8000 ≤ 0x7F7F8000 % 2 ^ 31) :=
  ⟨by decide, by decide, (C17_rounding_overflow 0x7F7F8000 (by decide) (by decide)).1⟩

/-- C18: for every 32-bit pattern `f`, bit 15 of the `raw_bits_` produced by
`operator=(float)` equals bit 31 of `f`. -/
theorem C18_sign_preserved (f : Nat) (hf : f < 2 ^ 32) :
    (bfloat16_t.assign f).raw_bits_.testBit 15 = f.testBit 31 := by
  have key : (bfloat16_t.assign f).raw_bits_ / 2 ^ 15 % 2 = f / 2 ^ 31 % 2 := by
    by_cases hn : fpclassify f = FpClass.FP_NAN
    · have he := (fpclassify_nan_iff f).1 hn
      unfold exponent_field at he
      rw [assign_nan f hn, or_64]
      have hlt : f / 65536 % 65536 = f / 65536 := by omega
      have hsign : f / 2 ^ 31 = f / 65536 / 32768 := by omega
      rw [hlt, hsign]
      clear he hlt hsign hn hf
      generalize f / 65536 = h
      have hr : (h + 64 - h / 64 % 2 * 64) / 128 = h / 128 := by omega
      have h1 : (h + 64 - h / 64 % 2 * 64) / 2 ^ 15 = (h + 64 - h / 64 % 2 * 64) / 128 / 256 := by
        omega
      have h2 : h / 32768 = h / 128 / 256 := by omega
      rw [h1, hr, h2]
    · rw [assign_non_nan f hf hn]
      have hg := round_magnitude_lt (f % 2147483648) (non_nan_magnitude f hn)
      generalize (if f % 2147483648 < 8388608 then 0
        else (f % 2147483648 + 32767 + f % 2147483648 / 65536 % 2) / 65536) = g at hg
      omega
  rw [Nat.testBit_to_div_mod, Nat.testBit_to_div_mod, key]

/-- Witness for C18 at a negative signalling NaN. -/
theorem C18_sign_preserved_witness :
    (0xFF800001 : Nat).testBit 31 = true ∧
    (bfloat16_t.assign 0xFF800001).raw_bits_.testBit 15 = (0xFF800001 : Nat).testBit 31 :=
  ⟨by decide, C18_sign_preserved 0xFF800001 (by decide)⟩

/-- C19: for two non-NaN patterns `x` and `y` with the same sign bit, if the
magnitude of `x` is at most the magnitude of `y`, then the magnitude of the
bfloat16 result for `x` is at most that for `y` (and so are the full 16-bit
results, the sign bits being equal). -/
theorem C19_conversion_monotone (x y : Nat) (hx : x < 2 ^ 32) (hy : y < 2 ^ 32)
    (hnx : fpclassify x ≠ FpClass.FP_NAN) (hny : fpclassify y ≠ FpClass.FP_NAN)
    (hs : x / 2 ^ 31 = y / 2 ^ 31) (hle : x % 2 ^ 31 ≤ y % 2 ^ 31) :
    (bfloat16_t.assign x).raw_bits_ % 2 ^ 15 ≤ (bfloat16_t.assign y).raw_bits_ % 2 ^ 15 ∧
    (bfloat16_t.assign x).raw_bits_ ≤ (bfloat16_t.assign y).raw_bits_ := by
  rw [assign_non_nan x hx hnx, assign_non_nan y hy hny]
  have hgx := round_magnitude_lt (x % 2147483648) (non_nan_magnitude x hnx)
  have hgy := round_magnitude_lt (y % 2147483648) (non_nan_magnitude y hny)
  have hmono := round_magnitude_mono (x % 2147483648) (y % 2147483648) hle
  have hs2 : x / 2147483648 = y / 2147483648 := hs
  rw [hs2]
  generalize (if x % 2147483648 < 8388608 then 0
    else (x % 2147483648 + 32767 + x % 2147483648 / 65536 % 2) / 65536) = gx at hgx hmono
  generalize (if y % 2147483648 < 8388608 then 0
    else (y % 2147483648 + 32767 + y % 2147483648 / 65536 % 2) / 65536) = gy at hgy hmono
  constructor <;> omega

/-- Witness for C19 at the largest finite float and `+inf`. -/
theorem C19_conversion_monotone_witness :
    (bfloat16_t.assign 0x7F7FFFFF).raw_bits_ % 2 ^ 15
      ≤ (bfloat16_t.assign 0x7F800000).raw_bits_ % 2 ^ 15 :=
  (C19_conversion_monotone 0x7F7FFFFF 0x7F800000 (by decide) (by decide) (by decide)
    (by decide) (by decide) (by decide)).1

end xir
